import Mathlib

/-!
Verification development for the editor's pack-indexing core:
the LightningCache change-detection/indexing component
(`src/components/PackIndexer/Worker/LightningCache/LightningCache.ts`)
and the PackSpider dependency-graph builder (the `File` node registry).

Pure parts of the TypeScript source are embedded as executable Lean
functions; stateful parts thread explicit state values.  External
collaborators (the LightningStore, the `walkObject` utility, the script
runner) are modelled from the spec where their code is not part of the
given sources.
-/

namespace Editor

/-- JSON values as produced by the tolerant `json5` parser. -/
inductive Json where
  | null
  | bool (b : Bool)
  | num (n : Int)
  | str (s : String)
  | arr (elems : List Json)
  | obj (entries : List (String × Json))

mutual

/-- Boolean equality on JSON values. -/
def Json.beq : Json → Json → Bool
  | .null, .null => true
  | .bool a, .bool b => a == b
  | .num a, .num b => a == b
  | .str a, .str b => a == b
  | .arr xs, .arr ys => Json.beqList xs ys
  | .obj xs, .obj ys => Json.beqEntries xs ys
  | _, _ => false

/-- Boolean equality on lists of JSON values. -/
def Json.beqList : List Json → List Json → Bool
  | [], [] => true
  | x :: xs, y :: ys => Json.beq x y && Json.beqList xs ys
  | _, _ => false

/-- Boolean equality on JSON object entry lists. -/
def Json.beqEntries : List (String × Json) → List (String × Json) → Bool
  | [], [] => true
  | (k, x) :: xs, (l, y) :: ys =>
      k == l && Json.beq x y && Json.beqEntries xs ys
  | _, _ => false

end

mutual

/-- The `Json.beq` decides equality (Prop-valued helper for the instance). -/
def Json.beq_iff : ∀ a b, Json.beq a b = true ↔ a = b
  | .null, .null => by simp [Json.beq]
  | .bool a, .bool b => by simp [Json.beq]
  | .num a, .num b => by simp [Json.beq]
  | .str a, .str b => by simp [Json.beq]
  | .arr xs, .arr ys => by
      simp only [Json.beq, Json.beqList_iff xs ys, Json.arr.injEq]
  | .obj xs, .obj ys => by
      simp only [Json.beq, Json.beqEntries_iff xs ys, Json.obj.injEq]
  | .null, .bool _ | .null, .num _ | .null, .str _ | .null, .arr _
  | .null, .obj _ | .bool _, .null | .bool _, .num _ | .bool _, .str _
  | .bool _, .arr _ | .bool _, .obj _ | .num _, .null | .num _, .bool _
  | .num _, .str _ | .num _, .arr _ | .num _, .obj _ | .str _, .null
  | .str _, .bool _ | .str _, .num _ | .str _, .arr _ | .str _, .obj _
  | .arr _, .null | .arr _, .bool _ | .arr _, .num _ | .arr _, .str _
  | .arr _, .obj _ | .obj _, .null | .obj _, .bool _ | .obj _, .num _
  | .obj _, .str _ | .obj _, .arr _ => by simp [Json.beq]

/-- The `Json.beqList` decides equality. -/
def Json.beqList_iff : ∀ xs ys, Json.beqList xs ys = true ↔ xs = ys
  | [], [] => by simp [Json.beqList]
  | x :: xs, y :: ys => by
      simp [Json.beqList, Json.beq_iff x y, Json.beqList_iff xs ys]
  | [], _ :: _ => by simp [Json.beqList]
  | _ :: _, [] => by simp [Json.beqList]

/-- The `Json.beqEntries` decides equality. -/
def Json.beqEntries_iff :
    ∀ xs ys, Json.beqEntries xs ys = true ↔ xs = ys
  | [], [] => by simp [Json.beqEntries]
  | (k, x) :: xs, (l, y) :: ys => by
      simp [Json.beqEntries, Json.beq_iff x y, Json.beqEntries_iff xs ys,
        Prod.ext_iff, and_assoc]
  | [], _ :: _ => by simp [Json.beqEntries]
  | _ :: _, [] => by simp [Json.beqEntries]

end

instance : DecidableEq Json :=
  fun a b => decidable_of_iff _ (Json.beq_iff a b)

/-- Helper for `jsSetDedup`: keep elements not yet seen, in order. -/
def jsSetDedupAux {α : Type} [DecidableEq α] (seen : List α) :
    List α → List α
  | [] => []
  | x :: xs =>
      if x ∈ seen then jsSetDedupAux seen xs
      else x :: jsSetDedupAux (seen ++ [x]) xs

/-- Insertion-order deduplication, the behaviour of JS `[...new Set(l)]`:
keeps the first occurrence of every element, drops later duplicates. -/
def jsSetDedup {α : Type} [DecidableEq α] (l : List α) : List α :=
  jsSetDedupAux [] l

/-- Association-list lookup by string-like key (first match). -/
def alistGet? {α : Type} (l : List (String × α)) (k : String) : Option α :=
  (l.find? (fun kv => kv.1 = k)).map (fun kv => kv.2)

/-- Association-list in-place update of an existing key (JS objects keep the
key's original position when a value is reassigned). -/
def alistSet {α : Type} (l : List (String × α)) (k : String) (v : α) :
    List (String × α) :=
  l.map (fun kv => if kv.1 = k then (k, v) else kv)

/-! ## Lightning-cache instructions (`ILightningInstruction`) -/

/-- The value of an instruction's non-`@` entry: a single target path or a
list of target paths (`instruction[key]` is `string | string[]`). -/
inductive PathSpec where
  | single (p : String)
  | multiple (ps : List String)
deriving DecidableEq

/-- One `ILightningInstruction` object: the optional `@filter` and `@map`
entries, plus the remaining (non-`@`) entries in object insertion order.
Only the first non-`@` key is consulted by `processJSON`. -/
structure LCInstruction where
  filter : Option (List String) := none
  mapFn : Option String := none
  entries : List (String × PathSpec) := []
deriving DecidableEq

/-- The result of `FileType.getLightningCache`: either raw script source
(the "JavaScript cache API") or a list of declarative instructions. -/
inductive Instructions where
  | script (src : String)
  | list (l : List LCInstruction)
deriving DecidableEq

/-- Normalization of one matched value inside `onReceiveData`
(LightningCache.ts lines 218-222): an array is kept as-is, an object
becomes the list of its keys, everything else becomes a one-element list.
JavaScript classes `null` as an object (`typeof null === 'object'`), and
`Object.keys(null ?? \x7b\x7d)` is empty, so a matched `null` yields `[]`. -/
def normalizeMatch : Json → List Json
  | .arr xs => xs
  | .obj kvs => kvs.map (fun kv => Json.str kv.1)
  | .null => []
  | v => [v]

/-- JS `filter.includes(d)` where `filter` holds string literals: a match
requires `d` to be that same string (strict equality across types fails). -/
def filterHit (filter : List String) (v : Json) : Bool :=
  match v with
  | .str s => filter.contains s
  | _ => false

/-- The filter/map phase of `onReceiveData` (lines 224-228): drop elements
listed in `@filter`, then apply the `@map` function per element, dropping
elements it rejects (`undefined` results).  The map function itself is the
external script runner `run(mapFunc, \x7b value \x7d)`, supplied as `runMap`. -/
def prepareData (runMap : String → Json → Option Json)
    (filter : Option (List String)) (mapFn : Option String)
    (readyData : List Json) : List Json :=
  let d₁ := match filter with
    | some f => readyData.filter (fun v => !filterHit f v)
    | none => readyData
  match mapFn with
  | some m => (d₁.map (runMap m)).filterMap id
  | none => d₁

/-- The accumulation phase of `onReceiveData` (lines 230-234): first data
for a key is stored as-is; later data is merged as `[...new Set(old ++ new)]`. -/
def collectInsert (cd : List (String × List Json)) (key : String)
    (ready : List Json) : List (String × List Json) :=
  match alistGet? cd key with
  | none => cd ++ [(key, ready)]
  | some old => alistSet cd key (jsSetDedup (old ++ ready))

/-- The full `onReceiveData` callback applied to one matched value. -/
def onReceiveData (runMap : String → Json → Option Json) (key : String)
    (filter : Option (List String)) (mapFn : Option String)
    (cd : List (String × List Json)) (data : Json) :
    List (String × List Json) :=
  collectInsert cd key (prepareData runMap filter mapFn (normalizeMatch data))

/-! ## The walkObject utility (external)

`walkObject` lives in `/@/utils/walkObject` and is not among the given
sources; it is modelled from the spec: it resolves a declared target path
against the parsed tree and reports every matched value.  The spec's path
syntax (its `entries[].id` example) separates object fields with `.`; a
segment suffixed `[]` visits every element of the array at that field. -/

/-- Field access on a parsed JSON object. -/
def fieldGet : Json → String → Option Json
  | .obj kvs, k => alistGet? kvs k
  | _, _ => none

/-- Split a character list on a separator character. -/
def splitCharList (sep : Char) : List Char → List (List Char)
  | [] => [[]]
  | c :: cs =>
      match splitCharList sep cs, decide (c = sep) with
      | groups, true => [] :: groups
      | g :: gs, false => (c :: g) :: gs
      | [], false => [[c]]

/-- Split a string on a separator character. -/
def splitOnChar (sep : Char) (s : String) : List String :=
  (splitCharList sep s.data).map List.asString

/-- When `seg` ends in `[]`, the field name in front of the brackets. -/
def stripArraySuffix (seg : String) : Option String :=
  match seg.data.reverse with
  | ']' :: '[' :: rest => some (List.asString rest.reverse)
  | _ => none

/-- Modelled from the spec: resolve a sequence of path segments against a
document, producing every matched value in document order.  A segment
suffixed `[]` visits every element of the array at that field. -/
def walkSegments : List String → Json → List Json
  | [], v => [v]
  | seg :: rest, v =>
      match stripArraySuffix seg with
      | some base =>
          match fieldGet v base with
          | some (.arr xs) => xs.flatMap (fun x => walkSegments rest x)
          | _ => []
      | none =>
          match fieldGet v seg with
          | some w => walkSegments rest w
          | none => []

/-- Modelled from the spec: `walkObject path obj onData` calls `onData` on
each value matched by the `.`-separated path. -/
def walkMatches (path : String) (v : Json) : List Json :=
  walkSegments (splitOnChar '.' path) v

/-- Evaluate one instruction against the parsed document (lines 237-267):
use the first non-`@` key as output key, walk each declared target path and
feed every match through `onReceiveData`. -/
def applyInstruction (runMap : String → Json → Option Json) (data : Json)
    (cd : List (String × List Json)) (ins : LCInstruction) :
    List (String × List Json) :=
  match ins.entries.head? with
  | none => cd
  | some (key, .single p) =>
      (walkMatches p data).foldl
        (onReceiveData runMap key ins.filter ins.mapFn) cd
  | some (key, .multiple ps) =>
      ps.foldl
        (fun cd p =>
          (walkMatches p data).foldl
            (onReceiveData runMap key ins.filter ins.mapFn) cd)
        cd

/-- Evaluate every instruction in order, accumulating into `collectedData`. -/
def runInstructions (runMap : String → Json → Option Json)
    (instructions : List LCInstruction) (data : Json) :
    List (String × List Json) :=
  instructions.foldl (applyInstruction runMap data) []

/-! ## The LightningStore (external collaborator)

The store implementation (`./LightningStore`) is not among the given
sources; it is modelled from the spec (§6): a durable mapping from
`(filePath, fileType)` to a cache record, with `get`/`add` (upsert),
`getLastModified`, `setVisited` and visited/total counters. -/

/-- One persisted cache record: `\x7b lastModified, data? \x7d`. -/
structure CacheRecord where
  lastModified : Nat
  data : Option (List (String × List Json)) := none
deriving DecidableEq

/-- Store key: `(filePath, fileType)`. -/
abbrev StoreKey := String × String

/-- One store entry: the record plus this pass's visited mark. -/
structure StoreEntry where
  record : CacheRecord
  visited : Bool := false
deriving DecidableEq

/-- Modelled from the spec: the LightningStore state, an insertion-ordered
mapping from `(filePath, fileType)` to entries. -/
structure LightningStore where
  entries : List (StoreKey × StoreEntry) := []
deriving DecidableEq

namespace LightningStore

/-- Point lookup of a stored entry. -/
def find? (s : LightningStore) (filePath fileType : String) :
    Option StoreEntry :=
  (s.entries.find? (fun kv => kv.1 = (filePath, fileType))).map
    (fun kv => kv.2)

/-- The stored cache record for a key, disregarding the visited mark. -/
def recordOf (s : LightningStore) (filePath fileType : String) :
    Option CacheRecord :=
  (s.find? filePath fileType).map (fun e => e.record)

/-- The `getLastModified(filePath, fileType)`: the stored record's timestamp,
or nothing when no record exists. -/
def getLastModified (s : LightningStore) (filePath fileType : String) :
    Option Nat :=
  (s.find? filePath fileType).map (fun e => e.record.lastModified)

/-- The `add(filePath, record, fileType)`: upsert, replacing the whole record
and keeping the entry's visited mark (new entries start unvisited). -/
def add (s : LightningStore) (filePath : String) (rec : CacheRecord)
    (fileType : String) : LightningStore :=
  match s.find? filePath fileType with
  | some _ =>
      ⟨s.entries.map (fun kv =>
        if kv.1 = (filePath, fileType) then (kv.1, { kv.2 with record := rec })
        else kv)⟩
  | none => ⟨s.entries ++ [((filePath, fileType), ⟨rec, false⟩)]⟩

/-- The `setVisited(filePath, b, fileType)`: mark an existing entry. -/
def setVisited (s : LightningStore) (filePath : String) (b : Bool)
    (fileType : String) : LightningStore :=
  ⟨s.entries.map (fun kv =>
    if kv.1 = (filePath, fileType) then (kv.1, { kv.2 with visited := b })
    else kv)⟩

/-- Modelled from the spec: the total-file counter is the number of stored
records. -/
def totalFiles (s : LightningStore) : Nat :=
  s.entries.length

/-- Modelled from the spec: the visited-file counter is the number of
stored records marked visited during the pass. -/
def visitedFiles (s : LightningStore) : Nat :=
  (s.entries.filter (fun kv => kv.2.visited)).length

/-- The `allFiles()`: every stored file path. -/
def allFiles (s : LightningStore) : List String :=
  s.entries.map (fun kv => kv.1.1)

end LightningStore

/-! ## LightningCache scan pass -/

/-- The set of recognized plain-text extensions (LightningCache.ts 10-17). -/
def knownTextFiles : List String :=
  [".js", ".ts", ".lang", ".mcfunction", ".txt", ".molang"]

/-- The `extname` path utility (external, `/@/utils/path`): the final
extension of the path's base name, including its dot. -/
def extname (filePath : String) : String :=
  let base := (splitOnChar '/' filePath).getLastD ""
  let parts := splitOnChar '.' base
  if parts.length ≤ 1 then "" else "." ++ parts.getLastD ""

/-- A file as handed to the scan callback: its current modification
timestamp and its raw text content. -/
structure FileData where
  lastModified : Nat
  content : String
deriving DecidableEq

/-- Reprocessing work performed on a file, recorded for the claims about
skipped work: a parse attempt, declarative-instruction evaluation, or a run
of the registered cache script. -/
inductive Effect where
  | parseAttempt
  | evalInstructions
  | runCacheScript
deriving DecidableEq

/-- The external collaborators used by a scan: `FileType.getId`,
`FileType.getLightningCache`, the tolerant `json5` parser, the script
runner for the JavaScript cache API, and the `@map` script runner. -/
structure CacheEnv where
  getId : String → String
  getLightningCache : String → Instructions
  parseJson : String → Option Json
  runScript : String → Option (String → List (String × List Json))
  runMap : String → Json → Option Json

/-- The `processText` (LightningCache.ts 145-172).  With script instructions
whose source evaluates to a function, the record carrying the function's
data is stored — and then unconditionally overwritten by the trailing
timestamp-only `add`, which runs on every path that reaches the end of the
method.  A script source that does not evaluate to a function returns
without storing anything. -/
def processText (env : CacheEnv) (filePath fileType : String)
    (file : FileData) (s : LightningStore) : LightningStore × List Effect :=
  match env.getLightningCache filePath with
  | .script src =>
      match env.runScript src with
      | none => (s, [.runCacheScript])
      | some cacheFunction =>
          let textData := cacheFunction file.content
          let s₁ := s.add filePath
            { lastModified := file.lastModified,
              data := if textData.length > 0 then some textData else none }
            fileType
          (s₁.add filePath { lastModified := file.lastModified } fileType,
            [.runCacheScript])
  | .list _ =>
      (s.add filePath { lastModified := file.lastModified } fileType, [])

/-- The `processJSON` (LightningCache.ts 178-282): tolerant parse; on failure
store a timestamp-only record and return; with absent/empty instructions
store a timestamp-only record; otherwise evaluate every instruction and
store the collected data (or no data when nothing was collected). -/
def processJSON (env : CacheEnv) (filePath fileType : String)
    (file : FileData) (s : LightningStore) : LightningStore × List Effect :=
  match env.parseJson file.content with
  | none =>
      (s.add filePath { lastModified := file.lastModified } fileType,
        [.parseAttempt])
  | some data =>
      match env.getLightningCache filePath with
      | .script _ =>
          (s.add filePath { lastModified := file.lastModified } fileType,
            [.parseAttempt])
      | .list [] =>
          (s.add filePath { lastModified := file.lastModified } fileType,
            [.parseAttempt])
      | .list instructions =>
          let collectedData := runInstructions env.runMap instructions data
          (s.add filePath
            { lastModified := file.lastModified,
              data :=
                if collectedData.length > 0 then some collectedData
                else none }
            fileType,
            [.parseAttempt, .evalInstructions])

/-- The `processFile` (LightningCache.ts 114-143): when the file's current
timestamp equals the stored record's `lastModified`, mark it visited and
report no change; otherwise reprocess by extension class and report a
change. -/
def processFile (env : CacheEnv) (filePath : String) (file : FileData)
    (s : LightningStore) : Bool × LightningStore × List Effect :=
  let fileType := env.getId filePath
  if s.getLastModified filePath fileType = some file.lastModified then
    (false, s.setVisited filePath true fileType, [])
  else
    let ext := extname filePath
    if ext = ".json" then
      let (s', fx) := processJSON env filePath fileType file s
      (true, s', fx)
    else if knownTextFiles.contains ext then
      let (s', fx) := processText env filePath fileType file s
      (true, s', fx)
    else
      (true, s.add filePath { lastModified := file.lastModified } fileType,
        [])

/-- One iteration of the walk callback in `start()` (LightningCache.ts
65-78): process the file, record whether anything changed, append the path
to the full list and, when changed, to the changed list. -/
def scanStep (env : CacheEnv)
    (acc : Bool × List String × List String × LightningStore)
    (pf : String × FileData) :
    Bool × List String × List String × LightningStore :=
  let (anyFileChanged, filePaths, changedFiles, s) := acc
  let (fileDidChange, s', _) := processFile env pf.1 pf.2 s
  (anyFileChanged || fileDidChange,
    filePaths ++ [pf.1],
    if fileDidChange then changedFiles ++ [pf.1] else changedFiles,
    s')

/-- The walk portion of `start()` (LightningCache.ts 60-86): process every
walked file in order, collecting all paths and the changed paths, then call
`saveStore` iff some file changed or the visited counter differs from the
total counter.  The walk itself (`iterateDir`) is external directory I/O;
its visit order is taken as the input list. -/
def startScan (env : CacheEnv) (files : List (String × FileData))
    (s₀ : LightningStore) :
    (List String × List String) × LightningStore × Bool :=
  let (anyFileChanged, filePaths, changedFiles, s) :=
    files.foldl (scanStep env) (false, [], [], s₀)
  let didSave := anyFileChanged || s.visitedFiles != s.totalFiles
  ((filePaths, changedFiles), s, didSave)

/-- The `start()` including the fast path (LightningCache.ts 55-58): with the
`noFullLightningCacheRefresh` option and a non-empty store, return the
known path list with an empty changed list, skipping the walk. -/
def start (env : CacheEnv) (noFullRefresh : Bool)
    (files : List (String × FileData)) (s₀ : LightningStore) :
    (List String × List String) × LightningStore × Bool :=
  if noFullRefresh ∧ (s₀.allFiles).length > 0 then ((s₀.allFiles, []), s₀, false)
  else startScan env files s₀

/-! ## PackSpider dependency graph (`PackSpider.ts`)

JS `File` objects have identity: two nodes for the same path may coexist
(the registry points at the newest).  Nodes are therefore modelled by
numeric ids allocated from a counter; the registry maps `(fileType,
filePath)` to the current node id, and edge sets hold ids. -/

/-- The `IFileDescription`: one dynamic `connect` rule.  The code normalizes a
single `find` string to a one-element array before use, so `find` is kept
as a list; `where` is a Lean keyword, rendered `whereKey`. -/
structure FileDescription where
  find : List String
  whereKey : String
  matchesKey : String
deriving DecidableEq

/-- The `IPackSpiderFile`: the connection-rule descriptor of one file type.
Absent optional fields behave as empty lists. -/
structure PackSpiderFile where
  connect : List FileDescription := []
  includeFiles : List String := []
  sharedFiles : List String := []
deriving DecidableEq

/-- One `File` node: path, display identifier, weak back-references
(`parents`) and owned out-edges (`connectedFiles`), both JS `Set`s in
insertion order, holding node ids. -/
structure FileNode where
  filePath : String
  identifier : String := "unknown"
  parents : List Nat := []
  connectedFiles : List Nat := []
deriving DecidableEq

/-- The global mutable state: the `fileStore` registry keyed by
`(fileType, filePath)`, the node heap, and the id allocator. -/
structure SpiderState where
  fileStore : List ((String × String) × Nat) := []
  nodes : List (Nat × FileNode) := []
  nextId : Nat := 0
deriving DecidableEq

/-- External collaborators of `File.create`: `FileType.getId`, the
pack-spider descriptor registry loaded in `setup`, and the lightning
store's `get(...).data` and `findMultiple`. -/
structure SpiderEnv where
  getId : String → String
  packSpiderFiles : String → Option PackSpiderFile
  cacheData : String → String → List (String × List String)
  findMultiple : List String → String → List String → List String

/-- JS `Set.add`: append if absent. -/
def setAdd (l : List Nat) (x : Nat) : List Nat :=
  if x ∈ l then l else l ++ [x]

/-- JS `Set.delete`: remove the element. -/
def setDelete (l : List Nat) (x : Nat) : List Nat :=
  l.filter (fun y => y ≠ x)

namespace SpiderState

/-- Look up a node by id. -/
def nodeOf (s : SpiderState) (i : Nat) : Option FileNode :=
  (s.nodes.find? (fun kv => kv.1 = i)).map (fun kv => kv.2)

/-- The `fileStore[fileType]?.[filePath]`. -/
def storeLookup (s : SpiderState) (fileType filePath : String) : Option Nat :=
  (s.fileStore.find? (fun kv => kv.1 = (fileType, filePath))).map
    (fun kv => kv.2)

/-- Apply a function to the node with the given id. -/
def updateNode (s : SpiderState) (i : Nat) (f : FileNode → FileNode) :
    SpiderState :=
  { s with nodes := s.nodes.map (fun kv => if kv.1 = i then (kv.1, f kv.2) else kv) }

/-- The `child.addParent(parent)`. -/
def addParent (s : SpiderState) (child parent : Nat) : SpiderState :=
  s.updateNode child (fun n => { n with parents := setAdd n.parents parent })

/-- The `child.removeParent(parent)`. -/
def removeParent (s : SpiderState) (child parent : Nat) : SpiderState :=
  s.updateNode child (fun n => { n with parents := setDelete n.parents parent })

/-- The out-edge ids of a node (empty when the id is dangling). -/
def childrenOf (s : SpiderState) (i : Nat) : List Nat :=
  match s.nodeOf i with
  | some n => n.connectedFiles
  | none => []

/-- The back-reference ids of a node (empty when the id is dangling). -/
def parentsOf (s : SpiderState) (i : Nat) : List Nat :=
  match s.nodeOf i with
  | some n => n.parents
  | none => []

/-- The `fileStore[fileType][filePath] = id` (upsert). -/
def storeSet (s : SpiderState) (fileType filePath : String) (i : Nat) :
    SpiderState :=
  match s.storeLookup fileType filePath with
  | some _ =>
      { s with fileStore := s.fileStore.map (fun kv =>
          if kv.1 = (fileType, filePath) then (kv.1, i) else kv) }
  | none =>
      { s with fileStore := s.fileStore ++ [((fileType, filePath), i)] }

end SpiderState

/-- The `storedFile.connectedFiles.forEach(file => file.removeParent(storedFile))`:
detach a node from every out-edge child's back-reference set. -/
def detachFromChildren (s : SpiderState) (oldId : Nat)
    (children : List Nat) : SpiderState :=
  children.foldl (fun s c => s.removeParent c oldId) s

/-- The `cacheData.identifier?.[0] ?? 'unknown'`. -/
def identifierFrom (cacheData : List (String × List String)) : String :=
  match alistGet? cacheData "identifier" with
  | some (v :: _) => v
  | _ => "unknown"

/-- Reasons `File.create` fails to produce a node: the modelling fuel ran
out, or the construction step spread the parent set of an absent stored
node (`[...storedFile?.parents]` with `storedFile === undefined` throws). -/
inductive CreateErr where
  | outOfFuel
  | spreadUndefined
deriving DecidableEq

/-- The tail of `File.create` (PackSpider.ts 159-167): run the `File`
constructor with the resolved children and initial parent list, set the
identifier, and register the node under `(fileType, filePath)`. -/
def finishCreate (fileType filePath identifier : String)
    (initParents childIds : List Nat) (s : SpiderState) :
    Nat × SpiderState :=
  let newId := s.nextId
  let node : FileNode :=
    { filePath := filePath,
      identifier := "unknown",
      parents := initParents.foldl setAdd [],
      connectedFiles := jsSetDedup childIds }
  let s₁ : SpiderState :=
    { s with nodes := s.nodes ++ [(newId, node)], nextId := newId + 1 }
  let s₂ := childIds.foldl (fun s c => s.addParent c newId) s₁
  let s₃ := s₂.updateNode newId (fun n => { n with identifier := identifier })
  (newId, s₃.storeSet fileType filePath newId)

/-- The list of child paths `File.create` resolves, in the code's fixed
order: directly referenced cache values prefixed with the path's root
segment, then every `connect` rule's `findMultiple` results, then the
static `sharedFiles`. -/
def childPathsOf (env : SpiderEnv) (filePath fileType : String) :
    List String :=
  let pathStart := (splitOnChar '/' filePath).headD ""
  let psf := (env.packSpiderFiles fileType).getD {}
  let cacheData := env.cacheData filePath fileType
  let includePaths :=
    ((psf.includeFiles.map
        (fun cacheKey => (alistGet? cacheData cacheKey).getD [])).flatten).map
      (fun p => pathStart ++ "/" ++ p)
  let connectPaths :=
    (psf.connect.map (fun d =>
      env.findMultiple d.find d.whereKey
        ((alistGet? cacheData d.matchesKey).getD []))).flatten
  includePaths ++ connectPaths ++ psf.sharedFiles

/-- Resolve a list of child paths left to right with the supplied
single-path resolver, collecting the node ids (the bodies of the three
child-resolution loops of `File.create`, PackSpider.ts 133-157). -/
def createList (step : String → SpiderState → Except CreateErr (Nat × SpiderState)) :
    List String → SpiderState → Except CreateErr (List Nat × SpiderState)
  | [], s => .ok ([], s)
  | p :: ps, s =>
      match step p s with
      | .error e => .error e
      | .ok (i, s') =>
          match createList step ps s' with
          | .error e => .error e
          | .ok (is, s'') => .ok (i :: is, s'')

/-- The `File.create(filePath, packSpider, forceUpdate)` (PackSpider.ts
98-168), with fuel bounding recursion depth: memoized lookup; a forced hit
first detaches the stored node from its children's back-reference sets;
children are resolved recursively (never forced); the constructor spreads
`storedFile?.parents` when forced, which fails on an absent stored node. -/
def create (env : SpiderEnv) :
    Nat → String → Bool → SpiderState → Except CreateErr (Nat × SpiderState)
  | 0, _, _, _ => .error .outOfFuel
  | fuel + 1, filePath, forceUpdate, s =>
      let fileType := env.getId filePath
      match s.storeLookup fileType filePath, forceUpdate with
      | some i, false => .ok (i, s)
      | stored, _ =>
        let s₁ := match stored with
          | some oldId => detachFromChildren s oldId (s.childrenOf oldId)
          | none => s
        match createList (fun p s => create env fuel p false s)
            (childPathsOf env filePath fileType) s₁ with
        | .error e => .error e
        | .ok (childIds, s₂) =>
            let identifier := identifierFrom (env.cacheData filePath fileType)
            match forceUpdate, stored with
            | true, none => .error .spreadUndefined
            | true, some oldId =>
                .ok (finishCreate fileType filePath identifier
                  (s₂.parentsOf oldId) childIds s₂)
            | false, _ =>
                .ok (finishCreate fileType filePath identifier [] childIds s₂)

/-- The `forEach` body of `deepConnectedFiles`: for each child, add the
child, then collect the child's own recursive result and add everything
it returns. -/
def deepList (step : Nat → Option (List Nat)) :
    List Nat → List Nat → Option (List Nat)
  | [], deepFiles => some deepFiles
  | c :: cs, deepFiles =>
      match step c with
      | none => none
      | some childDeep =>
          deepList step cs (childDeep.foldl setAdd (setAdd deepFiles c))

/-- The `deepConnectedFiles` getter (PackSpider.ts 187-196), with fuel
bounding recursion depth: every recursive call allocates its own fresh
`Set` — there is no visited accumulator shared across the recursion — so
the result is the set-union of each child with that child's own full
recursive collection.  `none` means the recursion did not complete within
the given depth. -/
def deepConnectedFiles (s : SpiderState) : Nat → Nat → Option (List Nat)
  | 0, _ => none
  | fuel + 1, i =>
      deepList (fun c => deepConnectedFiles s fuel c) (s.childrenOf i) []

/-- The `IFile` directory entries produced by `toDirectory`. -/
structure DirEntry where
  name : String
  filePath : String
deriving DecidableEq

/-- The `fileName` getter: the last `/`-segment of the path. -/
def fileName (filePath : String) : String :=
  (splitOnChar '/' filePath).getLastD ""

/-- The node-id set collected by `toDirectory()` (PackSpider.ts 170-186):
the deep connected files plus the node itself (`deepFiles.add(this)`). -/
def toDirectoryFiles (s : SpiderState) (fuel : Nat) (i : Nat) :
    Option (List Nat) :=
  (deepConnectedFiles s fuel i).map (fun deepFiles => setAdd deepFiles i)

/-- The `toDirectory()`: the collected nodes rendered as directory entries. -/
def toDirectory (s : SpiderState) (fuel : Nat) (i : Nat) :
    Option (List DirEntry) :=
  (toDirectoryFiles s fuel i).map (fun ids => ids.map (fun f =>
    let p := match s.nodeOf f with
      | some n => n.filePath
      | none => ""
    { name := fileName p, filePath := p }))

/-- Reachability through one or more out-edges. -/
inductive ReachesPlus (s : SpiderState) : Nat → Nat → Prop
  | base {i c : Nat} : c ∈ s.childrenOf i → ReachesPlus s i c
  | step {i c m : Nat} :
      c ∈ s.childrenOf i → ReachesPlus s c m → ReachesPlus s i m

/-- A node is reachable from `i` when it is `i` itself or lies behind at
least one out-edge. -/
def Reaches (s : SpiderState) (i m : Nat) : Prop :=
  m = i ∨ ReachesPlus s i m

/-- Every out-edge points at an earlier-created node (a smaller id).  This
holds for every graph built by `File.create`: a node's children are
created, and hence allocated, strictly before the node itself. -/
def EdgesDecrease (s : SpiderState) : Prop :=
  ∀ kv ∈ s.nodes, ∀ c ∈ kv.2.connectedFiles, c < kv.1

instance (s : SpiderState) : Decidable (EdgesDecrease s) := by
  unfold EdgesDecrease; infer_instance

/-- Every node id recorded in the registry or the node heap is below the
allocator counter — true of the empty state and preserved by `create`. -/
def Bounded (s : SpiderState) : Prop :=
  (∀ kv ∈ s.fileStore, kv.2 < s.nextId) ∧ (∀ kv ∈ s.nodes, kv.1 < s.nextId)

instance (s : SpiderState) : Decidable (Bounded s) := by
  unfold Bounded; infer_instance

/-- How a non-forced `File.create` call may transform the state: the id
allocator only grows, back-reference sets only gain freshly allocated ids,
and no back-reference is ever removed. -/
structure StateEvolve (s s' : SpiderState) : Prop where
  mono : s.nextId ≤ s'.nextId
  parentsFresh : ∀ c x, x ∈ s'.parentsOf c → x ∈ s.parentsOf c ∨ s.nextId ≤ x
  parentsKeep : ∀ c x, x ∈ s.parentsOf c → x ∈ s'.parentsOf c

/-- A two-node graph in which node 0 links node 1 and node 1 links node 0
(A links B, B links A) — the object-level cycle the spec's traversal claim
quantifies over. -/
def cyclicPairState : SpiderState :=
  { fileStore := [(("t", "a"), 0), (("t", "b"), 1)],
    nodes :=
      [(0, { filePath := "a", parents := [1], connectedFiles := [1] }),
        (1, { filePath := "b", parents := [0], connectedFiles := [0] })],
    nextId := 2 }

/-- Whether an `Except` computation produced a value. -/
def exceptIsOk {ε α : Type} : Except ε α → Bool
  | .ok _ => true
  | .error _ => false

/-! # Supporting lemmas -/

theorem mem_jsSetDedupAux {α : Type} [DecidableEq α] (l : List α) :
    ∀ (seen : List α) (v : α),
      v ∈ jsSetDedupAux seen l ↔ v ∈ l ∧ v ∉ seen := by
  induction l with
  | nil => intro seen v; simp [jsSetDedupAux]
  | cons x xs ih =>
    intro seen v
    by_cases hx : x ∈ seen
    · simp only [jsSetDedupAux, if_pos hx, ih, List.mem_cons]
      constructor
      · rintro ⟨h1, h2⟩; exact ⟨Or.inr h1, h2⟩
      · rintro ⟨h1 | h1, h2⟩
        · exact absurd (h1 ▸ hx) h2
        · exact ⟨h1, h2⟩
    · simp only [jsSetDedupAux, if_neg hx, List.mem_cons, ih,
        List.mem_append, List.mem_singleton]
      by_cases hvx : v = x
      · simp [hvx, hx]
      · simp [hvx]

/-- Membership is unchanged by `jsSetDedup`. -/
theorem mem_jsSetDedup {α : Type} [DecidableEq α] (l : List α) (v : α) :
    v ∈ jsSetDedup l ↔ v ∈ l := by
  simp [jsSetDedup, mem_jsSetDedupAux]

theorem nodup_jsSetDedupAux {α : Type} [DecidableEq α] (l : List α) :
    ∀ seen : List α, (jsSetDedupAux seen l).Nodup := by
  induction l with
  | nil => intro seen; simp [jsSetDedupAux]
  | cons x xs ih =>
    intro seen
    by_cases hx : x ∈ seen
    · simpa [jsSetDedupAux, if_pos hx] using ih seen
    · rw [jsSetDedupAux, if_neg hx, List.nodup_cons]
      refine ⟨fun hmem => ?_, ih _⟩
      rw [mem_jsSetDedupAux] at hmem
      simp at hmem

/-- The `jsSetDedup` returns a duplicate-free list. -/
theorem nodup_jsSetDedup {α : Type} [DecidableEq α] (l : List α) :
    (jsSetDedup l).Nodup :=
  nodup_jsSetDedupAux l []

theorem jsSetDedupAux_sublist {α : Type} [DecidableEq α] (l : List α) :
    ∀ seen : List α, (jsSetDedupAux seen l).Sublist l := by
  induction l with
  | nil => intro seen; simp [jsSetDedupAux]
  | cons x xs ih =>
    intro seen
    by_cases hx : x ∈ seen
    · rw [jsSetDedupAux, if_pos hx]
      exact (ih seen).trans (List.sublist_cons_self x xs)
    · rw [jsSetDedupAux, if_neg hx]
      exact (ih (seen ++ [x])).cons₂ x

/-- The `jsSetDedup l` is a sublist of `l`: relative order of survivors is kept. -/
theorem jsSetDedup_sublist {α : Type} [DecidableEq α] (l : List α) :
    (jsSetDedup l).Sublist l :=
  jsSetDedupAux_sublist l []

/-- A key-preserving entry update commutes with keyed search. -/
theorem find?_map_keyFixed {κ β : Type} [DecidableEq κ]
    (l : List (κ × β)) (K : κ) (g : κ × β → κ × β)
    (hg : ∀ kv, (g kv).1 = kv.1) :
    (l.map g).find? (fun kv => kv.1 = K) =
      (l.find? (fun kv => kv.1 = K)).map g := by
  rw [List.find?_map]
  have hp : ((fun kv : κ × β => decide (kv.1 = K)) ∘ g) =
      fun kv : κ × β => decide (kv.1 = K) := by
    funext kv; simp [hg]
  rw [hp]

namespace LightningStore

theorem getLastModified_eq (s : LightningStore) (p t : String) :
    s.getLastModified p t = (s.recordOf p t).map (fun r => r.lastModified) := by
  unfold getLastModified recordOf
  cases s.find? p t <;> simp

/-- The `setVisited` does not change any stored record. -/
theorem recordOf_setVisited (s : LightningStore) (fp : String) (b : Bool)
    (ft p t : String) :
    (s.setVisited fp b ft).recordOf p t = s.recordOf p t := by
  unfold recordOf find? setVisited
  rw [find?_map_keyFixed _ _ _ (fun kv => by by_cases h : kv.1 = (fp, ft) <;> simp [h])]
  cases s.entries.find? (fun kv => kv.1 = (p, t)) with
  | none => rfl
  | some kv => by_cases hk : kv.1 = (fp, ft) <;> simp [hk]

/-- After `add`, the key's stored record is exactly the added record. -/
theorem recordOf_add_self (s : LightningStore) (p : String)
    (r : CacheRecord) (t : String) :
    (s.add p r t).recordOf p t = some r := by
  unfold add
  cases hf : s.find? p t with
  | some e =>
      unfold recordOf find?
      rw [find?_map_keyFixed _ _ _ (fun kv => by by_cases h : kv.1 = (p, t) <;> simp [h])]
      unfold find? at hf
      cases hfe : s.entries.find? (fun kv => kv.1 = (p, t)) with
      | none => rw [hfe] at hf; simp at hf
      | some kv =>
          have hk : kv.1 = (p, t) := by
            have := List.find?_some hfe
            simpa using this
          simp [hfe, hk]
  | none =>
      unfold recordOf find?
      rw [List.find?_append]
      unfold find? at hf
      cases hfe : s.entries.find? (fun kv => kv.1 = (p, t)) with
      | some kv => rw [hfe] at hf; simp at hf
      | none => simp

/-- The `setVisited` keeps the number of stored records. -/
theorem totalFiles_setVisited (s : LightningStore) (fp : String) (b : Bool)
    (ft : String) : (s.setVisited fp b ft).totalFiles = s.totalFiles := by
  unfold totalFiles setVisited
  simp

/-- The `setVisited` keeps the list of stored keys. -/
theorem keys_setVisited (s : LightningStore) (fp : String) (b : Bool)
    (ft : String) :
    (s.setVisited fp b ft).entries.map Prod.fst = s.entries.map Prod.fst := by
  unfold setVisited
  rw [List.map_map]
  congr 1
  funext kv
  by_cases h : kv.1 = (fp, ft) <;> simp [h]

end LightningStore

/-- The `processFile` on an unchanged file: mark visited, report no change,
perform no work. -/
theorem processFile_unchanged_eq (env : CacheEnv) (filePath : String)
    (file : FileData) (s : LightningStore)
    (h : s.getLastModified filePath (env.getId filePath) =
      some file.lastModified) :
    processFile env filePath file s =
      (false, s.setVisited filePath true (env.getId filePath), []) := by
  unfold processFile
  simp [h]

/-- The full path list returned by the walk is exactly the walked files. -/
theorem scanFold_filePaths (env : CacheEnv) (files : List (String × FileData)) :
    ∀ (acc : Bool × List String × List String × LightningStore),
      (files.foldl (scanStep env) acc).2.1 =
        acc.2.1 ++ files.map (fun pf => pf.1) := by
  induction files with
  | nil => intro acc; simp
  | cons pf rest ih =>
    intro acc
    obtain ⟨b, fps, cfs, s⟩ := acc
    rcases hp : processFile env pf.1 pf.2 s with ⟨d, s', fx⟩
    simp only [List.foldl_cons, scanStep, hp, ih, List.map_cons]
    simp

/-- The `startScan` always reports every walked file in the full path list. -/
theorem startScan_filePaths (env : CacheEnv)
    (files : List (String × FileData)) (s₀ : LightningStore) :
    (startScan env files s₀).1.1 = files.map (fun pf => pf.1) := by
  unfold startScan
  have := scanFold_filePaths env files (false, [], [], s₀)
  rcases hf : files.foldl (scanStep env) (false, [], [], s₀) with ⟨b, fps, cfs, s⟩
  rw [hf] at this
  simpa using this

/-! # Claims -/

/-- C3: For every file visited during a scan whose stored record
`lastModified` equals the file's current modification timestamp,
`processFile` marks the file visited in the Store, returns `false` (the
file is not in the changed list), and performs no reprocessing: no parse,
no instruction evaluation, and no record write. -/
theorem C3_processFile_unchanged (env : CacheEnv) (filePath : String)
    (file : FileData) (s : LightningStore)
    (h : s.getLastModified filePath (env.getId filePath) =
      some file.lastModified) :
    processFile env filePath file s =
      (false, s.setVisited filePath true (env.getId filePath), []) ∧
    (∀ p t, (s.setVisited filePath true (env.getId filePath)).recordOf p t =
      s.recordOf p t) ∧
    (startScan env [(filePath, file)] s).1.2 = [] := by
  refine ⟨processFile_unchanged_eq env filePath file s h, ?_, ?_⟩
  · intro p t
    exact LightningStore.recordOf_setVisited s filePath true (env.getId filePath) p t
  · unfold startScan
    simp [scanStep, processFile_unchanged_eq env filePath file s h]

/-- C3 witness: a store holding `(\"root/a.json\", \"x\") ↦ lastModified 100`
and a file with timestamp 100. -/
theorem C3_witness :
    (LightningStore.mk [(("root/a.json", "x"), ⟨⟨100, none⟩, false⟩)]
        |>.getLastModified "root/a.json"
          ((CacheEnv.mk (fun _ => "x") (fun _ => .list []) (fun _ => none)
            (fun _ => none) (fun _ _ => none)).getId "root/a.json")) =
      some (100 : Nat) ∧
    processFile
        (CacheEnv.mk (fun _ => "x") (fun _ => .list []) (fun _ => none)
          (fun _ => none) (fun _ _ => none))
        "root/a.json" ⟨100, "content"⟩
        (LightningStore.mk [(("root/a.json", "x"), ⟨⟨100, none⟩, false⟩)]) =
      (false,
        (LightningStore.mk [(("root/a.json", "x"), ⟨⟨100, none⟩, false⟩)]).setVisited
          "root/a.json" true "x", []) :=
  ⟨by decide,
    (C3_processFile_unchanged _ "root/a.json" ⟨100, "content"⟩ _ (by decide)).1⟩

/-- C9: For every changed JSON file whose content fails to parse,
processing is non-fatal: a record containing only the file's
`lastModified` timestamp (no data) is stored, the file still counts as
changed, and the scan pass goes on to every other file. -/
theorem C9_processJSON_parse_failure (env : CacheEnv) (filePath : String)
    (file : FileData) (s : LightningStore)
    (hext : extname filePath = ".json")
    (hparse : env.parseJson file.content = none)
    (hchanged : s.getLastModified filePath (env.getId filePath) ≠
      some file.lastModified) :
    processJSON env filePath (env.getId filePath) file s =
      (s.add filePath { lastModified := file.lastModified }
        (env.getId filePath), [.parseAttempt]) ∧
    (s.add filePath { lastModified := file.lastModified }
        (env.getId filePath)).recordOf filePath (env.getId filePath) =
      some { lastModified := file.lastModified, data := none } ∧
    processFile env filePath file s =
      (true, s.add filePath { lastModified := file.lastModified }
        (env.getId filePath), [.parseAttempt]) ∧
    ∀ (files : List (String × FileData)) (s₀ : LightningStore),
      (startScan env files s₀).1.1 = files.map (fun pf => pf.1) := by
  have hj : processJSON env filePath (env.getId filePath) file s =
      (s.add filePath { lastModified := file.lastModified }
        (env.getId filePath), [.parseAttempt]) := by
    unfold processJSON
    simp [hparse]
  refine ⟨hj, ?_, ?_, fun files s₀ => startScan_filePaths env files s₀⟩
  · exact LightningStore.recordOf_add_self s filePath _ (env.getId filePath)
  · unfold processFile
    simp [hchanged, hext, hj]

/-- C9 witness: an empty store and a file `a.json` whose content the
parser rejects. -/
theorem C9_witness :
    extname "a.json" = ".json" ∧
    processFile
        (CacheEnv.mk (fun _ => "x") (fun _ => .list []) (fun _ => none)
          (fun _ => none) (fun _ _ => none))
        "a.json" ⟨7, "not json"⟩ (LightningStore.mk []) =
      (true,
        (LightningStore.mk []).add "a.json" { lastModified := 7 } "x",
        [.parseAttempt]) :=
  ⟨by decide,
    (C9_processJSON_parse_failure
      (CacheEnv.mk (fun _ => "x") (fun _ => .list []) (fun _ => none)
        (fun _ => none) (fun _ _ => none))
      "a.json" ⟨7, "not json"⟩ (LightningStore.mk [])
      (by decide) (by decide) (by decide)).2.2.1⟩

/-- C2 (code bug): for a plain-text file whose registered script-style
transform evaluates to a function returning a non-empty mapping,
`processText` stores the record carrying that mapping — and then
unconditionally stores a timestamp-only record over it (the trailing `add`
at LightningCache.ts 167-171 runs on every path through the method), so
the record that remains has no `data` field. -/
theorem C2_processText_data_overwritten (env : CacheEnv)
    (filePath fileType : String) (file : FileData) (s : LightningStore)
    (src : String) (cacheFunction : String → List (String × List Json))
    (hins : env.getLightningCache filePath = .script src)
    (hrun : env.runScript src = some cacheFunction)
    (hne : (cacheFunction file.content).length > 0) :
    processText env filePath fileType file s =
      ((s.add filePath
          { lastModified := file.lastModified,
            data := some (cacheFunction file.content) } fileType).add
        filePath { lastModified := file.lastModified } fileType,
        [.runCacheScript]) ∧
    (processText env filePath fileType file s).1.recordOf filePath fileType =
      some { lastModified := file.lastModified, data := none } := by
  have hp : processText env filePath fileType file s =
      ((s.add filePath
          { lastModified := file.lastModified,
            data := some (cacheFunction file.content) } fileType).add
        filePath { lastModified := file.lastModified } fileType,
        [.runCacheScript]) := by
    unfold processText
    simp [hins, hrun, hne]
  refine ⟨hp, ?_⟩
  rw [hp]
  exact LightningStore.recordOf_add_self _ filePath _ fileType

/-- C2 witness: file `test.lang` with a registered script whose function
returns one key with one value; the surviving record is timestamp-only. -/
theorem C2_witness :
    processText
        (CacheEnv.mk (fun _ => "x") (fun _ => .script "cache")
          (fun _ => none)
          (fun _ => some (fun _ => [("k", [Json.str "v"])]))
          (fun _ _ => none))
        "test.lang" "x" ⟨5, "line"⟩ (LightningStore.mk []) =
      (((LightningStore.mk []).add "test.lang"
          { lastModified := 5, data := some [("k", [Json.str "v"])] } "x").add
        "test.lang" { lastModified := 5 } "x", [.runCacheScript]) ∧
    (processText
        (CacheEnv.mk (fun _ => "x") (fun _ => .script "cache")
          (fun _ => none)
          (fun _ => some (fun _ => [("k", [Json.str "v"])]))
          (fun _ _ => none))
        "test.lang" "x" ⟨5, "line"⟩ (LightningStore.mk [])).1.recordOf
      "test.lang" "x" = some { lastModified := 5, data := none } :=
  C2_processText_data_overwritten _ "test.lang" "x" ⟨5, "line"⟩
    (LightningStore.mk []) "cache" (fun _ => [("k", [Json.str "v"])])
    rfl rfl (by decide)

/-- C5 counterexample: a matched `null` is a scalar, yet it is not
normalized to a one-element list — JavaScript classes `null` as an object,
and `Object.keys(null ?? \x7b\x7d)` is empty, so `null` yields the empty
list. -/
theorem C5_counterexample :
    normalizeMatch Json.null = [] ∧
    normalizeMatch Json.null ≠ [Json.null] ∧
    (normalizeMatch Json.null).length ≠ 1 := by
  refine ⟨rfl, ?_, ?_⟩ <;> decide

/-- C5 (amended): each value matched at a declared target path is
normalized as follows — an array is kept as-is, an object becomes the
list of its keys, `null` (classed as an object by the runtime) becomes
the empty list, and every other scalar becomes a single-element list; the
instruction `\x7b path: "entries[].id" \x7d` evaluated against
`\x7b entries: [\x7b id:"a" \x7d, \x7b id:"b" \x7d] \x7d` yields the value list
`["a","b"]` for that output key. -/
theorem C5_normalization (xs : List Json) (kvs : List (String × Json))
    (b : Bool) (n : Int) (t : String) :
    normalizeMatch (.arr xs) = xs ∧
    normalizeMatch (.obj kvs) = kvs.map (fun kv => Json.str kv.1) ∧
    normalizeMatch .null = [] ∧
    normalizeMatch (.str t) = [.str t] ∧
    normalizeMatch (.num n) = [.num n] ∧
    normalizeMatch (.bool b) = [.bool b] ∧
    runInstructions (fun _ _ => none)
      [{ entries := [("id", .single "entries[].id")] }]
      (.obj [("entries",
        .arr [.obj [("id", .str "a")], .obj [("id", .str "b")]])]) =
      [("id", [.str "a", .str "b"])] :=
  ⟨rfl, rfl, rfl, rfl, rfl, rfl, by decide⟩

/-- C6: elements contained in the instruction's `@filter` set are
excluded, the optional `@map` function is applied per element (dropping
elements it rejects), and data accumulated for one output key across
several `onReceiveData` calls is the first-seen-order deduplicated union
of the processed value lists; a filter of `["x"]` applied to raw values
`["x","y","x"]` yields `["y"]`. -/
theorem C6_filter_map_dedup (runMap : String → Json → Option Json)
    (f : List String) (d a c : List Json) (key : String) (v : Json) :
    prepareData runMap (some ["x"]) none
      [.str "x", .str "y", .str "x"] = [.str "y"] ∧
    (v ∈ prepareData runMap (some f) none d ↔
      v ∈ d ∧ filterHit f v = false) ∧
    (∀ mf : String, v ∈ prepareData runMap (some f) (some mf) d ↔
      ∃ u, u ∈ d ∧ filterHit f u = false ∧ runMap mf u = some v) ∧
    collectInsert (collectInsert [] key a) key c =
      [(key, jsSetDedup (a ++ c))] ∧
    (jsSetDedup (a ++ c)).Nodup ∧
    (∀ w, w ∈ jsSetDedup (a ++ c) ↔ w ∈ a ++ c) ∧
    (jsSetDedup (a ++ c)).Sublist (a ++ c) := by
  refine ⟨rfl, ?_, ?_, ?_, nodup_jsSetDedup _,
    fun w => mem_jsSetDedup _ w, jsSetDedup_sublist _⟩
  · unfold prepareData
    simp [List.mem_filter]
  · intro mf
    unfold prepareData
    simp only [List.filterMap_map, List.mem_filterMap, List.mem_filter,
      Function.comp, id, Bool.not_eq_true']
    constructor
    · rintro ⟨u, ⟨hu, hf⟩, hm⟩; exact ⟨u, hu, hf, hm⟩
    · rintro ⟨u, hu, hf, hm⟩; exact ⟨u, ⟨hu, hf⟩, hm⟩
  · unfold collectInsert alistGet? alistSet
    simp [List.find?]

/-- During the walk fold, the any-changed flag ends up set iff the changed
list grew; the changed list never shrinks. -/
theorem scanFold_anyChanged (env : CacheEnv)
    (files : List (String × FileData)) :
    ∀ (b : Bool) (fps cfs : List String) (s : LightningStore),
      ((files.foldl (scanStep env) (b, fps, cfs, s)).1 = true ↔
        b = true ∨
          cfs.length <
            (files.foldl (scanStep env) (b, fps, cfs, s)).2.2.1.length) ∧
      cfs.length ≤
        (files.foldl (scanStep env) (b, fps, cfs, s)).2.2.1.length := by
  induction files with
  | nil => intro b fps cfs s; simp
  | cons pf rest ih =>
    intro b fps cfs s
    rcases hp : processFile env pf.1 pf.2 s with ⟨d, s', fx⟩
    simp only [List.foldl_cons, scanStep, hp]
    cases d with
    | false => simpa using ih b (fps ++ [pf.1]) cfs s'
    | true =>
      have ih' := ih true (fps ++ [pf.1]) (cfs ++ [pf.1]) s'
      simp only [Bool.or_true, eq_self_iff_true, if_true, true_or,
        iff_true, List.length_append, List.length_singleton] at ih' ⊢
      obtain ⟨ih1, ih2⟩ := ih'
      refine ⟨⟨fun _ => Or.inr ?_, fun _ => ih1⟩, ?_⟩
      · exact Nat.lt_of_lt_of_le (Nat.lt_succ_self _) ih2
      · exact Nat.le_trans (Nat.le_succ _) ih2

/-- A walk over files whose timestamps all match the stored records
reduces to marking every walked file visited: flag and changed list stay
as they were. -/
theorem scanFold_unchanged (env : CacheEnv)
    (files : List (String × FileData)) :
    ∀ (b : Bool) (fps cfs : List String) (s : LightningStore),
      (∀ pf ∈ files,
        s.getLastModified pf.1 (env.getId pf.1) = some pf.2.lastModified) →
      files.foldl (scanStep env) (b, fps, cfs, s) =
        (b, fps ++ files.map (fun pf => pf.1), cfs,
          files.foldl
            (fun s pf => s.setVisited pf.1 true (env.getId pf.1)) s) := by
  induction files with
  | nil => intro b fps cfs s _; simp
  | cons pf rest ih =>
    intro b fps cfs s h
    have hstep := processFile_unchanged_eq env pf.1 pf.2 s
      (h pf (List.mem_cons_self pf rest))
    simp only [List.foldl_cons, scanStep, hstep]
    rw [ih]
    · simp
    · intro pf' hpf'
      rw [LightningStore.getLastModified_eq,
        LightningStore.recordOf_setVisited,
        ← LightningStore.getLastModified_eq]
      exact h pf' (List.mem_cons_of_mem _ hpf')

/-- Marking files visited keeps the list of stored keys. -/
theorem visitFold_keys (env : CacheEnv) (files : List (String × FileData)) :
    ∀ s : LightningStore,
      ((files.foldl
          (fun s pf => s.setVisited pf.1 true (env.getId pf.1)) s).entries.map
        Prod.fst) = s.entries.map Prod.fst := by
  induction files with
  | nil => intro s; rfl
  | cons pf rest ih =>
    intro s
    rw [List.foldl_cons, ih, LightningStore.keys_setVisited]

/-- An entry already marked visited stays visited through further marks. -/
theorem visitFold_preserves_visited (env : CacheEnv)
    (files : List (String × FileData)) :
    ∀ (s : LightningStore) (K : StoreKey),
      (∀ kv ∈ s.entries, kv.1 = K → kv.2.visited = true) →
      ∀ kv ∈ (files.foldl
          (fun s pf => s.setVisited pf.1 true (env.getId pf.1)) s).entries,
        kv.1 = K → kv.2.visited = true := by
  induction files with
  | nil => intro s K h; exact h
  | cons pf rest ih =>
    intro s K h
    rw [List.foldl_cons]
    refine ih _ K ?_
    intro kv hkv hk
    unfold LightningStore.setVisited at hkv
    simp only [List.mem_map] at hkv
    obtain ⟨kv₀, hkv₀, hkveq⟩ := hkv
    by_cases h0 : kv₀.1 = (pf.1, env.getId pf.1)
    · rw [if_pos h0] at hkveq
      rw [← hkveq]
    · rw [if_neg h0] at hkveq
      subst hkveq
      exact h kv₀ hkv₀ hk

/-- The `setVisited … true …` marks every entry under the targeted key. -/
theorem setVisited_sets (s : LightningStore) (fp ft : String) :
    ∀ kv ∈ (s.setVisited fp true ft).entries,
      kv.1 = (fp, ft) → kv.2.visited = true := by
  intro kv hkv hk
  unfold LightningStore.setVisited at hkv
  simp only [List.mem_map] at hkv
  obtain ⟨kv₀, hkv₀, hkveq⟩ := hkv
  by_cases h0 : kv₀.1 = (fp, ft)
  · rw [if_pos h0] at hkveq
    rw [← hkveq]
  · rw [if_neg h0] at hkveq
    exact absurd (hkveq ▸ hk) h0

/-- After marking every walked file, each entry whose key is covered by
the walk is visited. -/
theorem visitFold_covered (env : CacheEnv)
    (files : List (String × FileData)) :
    ∀ (s : LightningStore) (K : StoreKey),
      (∃ pf ∈ files, (pf.1, env.getId pf.1) = K) →
      ∀ kv ∈ (files.foldl
          (fun s pf => s.setVisited pf.1 true (env.getId pf.1)) s).entries,
        kv.1 = K → kv.2.visited = true := by
  induction files with
  | nil => intro s K h; simp at h
  | cons pf rest ih =>
    intro s K h
    obtain ⟨pf', hpf', hK⟩ := h
    rw [List.foldl_cons]
    rcases List.mem_cons.mp hpf' with heq | hmem
    · subst heq
      refine visitFold_preserves_visited env rest _ K ?_
      intro kv hkv hk
      exact setVisited_sets s pf'.1 (env.getId pf'.1) kv hkv
        (hk.trans hK.symm)
    · exact ih _ K ⟨pf', hmem, hK⟩

/-- A store whose entries are all visited has matching counters. -/
theorem visitedFiles_eq_totalFiles (s : LightningStore)
    (h : ∀ kv ∈ s.entries, kv.2.visited = true) :
    s.visitedFiles = s.totalFiles := by
  unfold LightningStore.visitedFiles LightningStore.totalFiles
  rw [List.filter_eq_self.mpr]
  intro kv hkv
  exact h kv hkv

/-- C4: after a full walk, `start()` persists the Store iff at least one
file changed during the pass or the visited counter differs from the
total counter; re-scanning a source tree whose files all carry their
stored timestamps (and which covers every stored record) yields an empty
changed list and no Store write. -/
theorem C4_persistence (env : CacheEnv) (files : List (String × FileData))
    (s₀ : LightningStore) :
    ((startScan env files s₀).2.2 = true ↔
      (startScan env files s₀).1.2 ≠ [] ∨
        (startScan env files s₀).2.1.visitedFiles ≠
          (startScan env files s₀).2.1.totalFiles) ∧
    ((∀ pf ∈ files,
        s₀.getLastModified pf.1 (env.getId pf.1) = some pf.2.lastModified) →
      (∀ kv ∈ s₀.entries, ∃ pf ∈ files, (pf.1, env.getId pf.1) = kv.1) →
      (startScan env files s₀).1.2 = [] ∧
        (startScan env files s₀).2.2 = false) := by
  constructor
  · obtain ⟨h1, _⟩ := scanFold_anyChanged env files false [] [] s₀
    unfold startScan
    rcases hf : files.foldl (scanStep env) (false, [], [], s₀) with
      ⟨b, fps, cfs, s⟩
    rw [hf] at h1
    simp only [List.length_nil, false_or] at h1
    simp only [Bool.or_eq_true, bne_iff_ne, ne_eq, h1, List.length_pos]
    tauto
  · intro hts hcov
    have hfold := scanFold_unchanged env files false [] [] s₀ hts
    unfold startScan
    rw [hfold]
    have hall : ∀ kv ∈ (files.foldl
        (fun s pf => s.setVisited pf.1 true (env.getId pf.1)) s₀).entries,
        kv.2.visited = true := by
      intro kv hkv
      have hkey : kv.1 ∈ (files.foldl
          (fun s pf => s.setVisited pf.1 true (env.getId pf.1))
            s₀).entries.map Prod.fst :=
        List.mem_map.mpr ⟨kv, hkv, rfl⟩
      rw [visitFold_keys] at hkey
      obtain ⟨kv₀, hkv₀, hk₀⟩ := List.mem_map.mp hkey
      obtain ⟨pf, hpf, hKeq⟩ := hcov kv₀ hkv₀
      exact visitFold_covered env files s₀ kv.1
        ⟨pf, hpf, by rw [hKeq, hk₀]⟩ kv hkv rfl
    have hcnt := visitedFiles_eq_totalFiles _ hall
    simp [hcnt]

/-! ## PackSpider lemmas -/

namespace SpiderState

theorem nodeOf_updateNode (s : SpiderState) (i : Nat)
    (f : FileNode → FileNode) (j : Nat) :
    (s.updateNode i f).nodeOf j =
      (s.nodeOf j).map (fun n => if j = i then f n else n) := by
  unfold nodeOf updateNode
  rw [find?_map_keyFixed _ _ _ (fun kv => by by_cases h : kv.1 = i <;> simp [h])]
  cases hf : s.nodes.find? (fun kv => kv.1 = j) with
  | none => rfl
  | some kv =>
    have hk : kv.1 = j := by simpa using List.find?_some hf
    by_cases hj : j = i <;> simp [hk, hj]

/-- The `updateNode` leaves the allocator and the registry alone. -/
theorem updateNode_nextId (s : SpiderState) (i : Nat) (f : FileNode → FileNode) :
    (s.updateNode i f).nextId = s.nextId := rfl

theorem updateNode_fileStore (s : SpiderState) (i : Nat)
    (f : FileNode → FileNode) :
    (s.updateNode i f).fileStore = s.fileStore := rfl

/-- The `parentsOf` through a known node. -/
theorem parentsOf_of_some (s : SpiderState) (j : Nat) (n : FileNode)
    (hn : s.nodeOf j = some n) : s.parentsOf j = n.parents := by
  unfold parentsOf
  rw [hn]

/-- The `parentsOf` of a dangling id. -/
theorem parentsOf_of_none (s : SpiderState) (j : Nat)
    (hn : s.nodeOf j = none) : s.parentsOf j = [] := by
  unfold parentsOf
  rw [hn]

/-- Back-reference set after `updateNode` when the node exists. -/
theorem parentsOf_updateNode_of_some (s : SpiderState) (i : Nat)
    (f : FileNode → FileNode) (j : Nat) (n : FileNode)
    (hn : s.nodeOf j = some n) :
    (s.updateNode i f).parentsOf j =
      if j = i then (f n).parents else n.parents := by
  unfold parentsOf
  rw [nodeOf_updateNode, hn]
  by_cases hj : j = i <;> simp [hj]

/-- Back-reference set after `updateNode` when the id dangles. -/
theorem parentsOf_updateNode_of_none (s : SpiderState) (i : Nat)
    (f : FileNode → FileNode) (j : Nat) (hn : s.nodeOf j = none) :
    (s.updateNode i f).parentsOf j = [] := by
  unfold parentsOf
  rw [nodeOf_updateNode, hn]
  rfl

/-- The `removeParent` removes the given parent from the child's set. -/
theorem parentsOf_removeParent_self (s : SpiderState) (c p : Nat) :
    p ∉ (s.removeParent c p).parentsOf c := by
  unfold removeParent
  cases hn : s.nodeOf c with
  | none => rw [parentsOf_updateNode_of_none _ _ _ _ hn]; simp
  | some n =>
    rw [parentsOf_updateNode_of_some _ _ _ _ _ hn, if_pos rfl]
    simp [setDelete, List.mem_filter]

/-- The `removeParent` only ever removes entries. -/
theorem parentsOf_removeParent_subset (s : SpiderState) (c p j x : Nat)
    (h : x ∈ (s.removeParent c p).parentsOf j) : x ∈ s.parentsOf j := by
  unfold removeParent at h
  cases hn : s.nodeOf j with
  | none => rw [parentsOf_updateNode_of_none _ _ _ _ hn] at h; simp at h
  | some n =>
    rw [parentsOf_updateNode_of_some _ _ _ _ _ hn] at h
    rw [parentsOf_of_some _ _ _ hn]
    by_cases hj : j = c
    · rw [if_pos hj] at h
      exact List.mem_of_mem_filter h
    · rw [if_neg hj] at h
      exact h

/-- The `removeParent` leaves every other node's parents alone. -/
theorem parentsOf_removeParent_other (s : SpiderState) (c p j : Nat)
    (hj : j ≠ c) : (s.removeParent c p).parentsOf j = s.parentsOf j := by
  unfold removeParent
  cases hn : s.nodeOf j with
  | none =>
    rw [parentsOf_updateNode_of_none _ _ _ _ hn, parentsOf_of_none _ _ hn]
  | some n =>
    rw [parentsOf_updateNode_of_some _ _ _ _ _ hn, if_neg hj,
      parentsOf_of_some _ _ _ hn]

theorem removeParent_nextId (s : SpiderState) (c p : Nat) :
    (s.removeParent c p).nextId = s.nextId := rfl

/-- The `addParent` adds at most the given parent. -/
theorem parentsOf_addParent_mem (s : SpiderState) (c p j x : Nat)
    (h : x ∈ (s.addParent c p).parentsOf j) :
    x ∈ s.parentsOf j ∨ x = p := by
  unfold addParent at h
  cases hn : s.nodeOf j with
  | none => rw [parentsOf_updateNode_of_none _ _ _ _ hn] at h; simp at h
  | some n =>
    rw [parentsOf_updateNode_of_some _ _ _ _ _ hn] at h
    rw [parentsOf_of_some _ _ _ hn]
    by_cases hj : j = c
    · rw [if_pos hj] at h
      simp only [setAdd] at h
      by_cases hp : p ∈ n.parents
      · rw [if_pos hp] at h; exact Or.inl h
      · rw [if_neg hp] at h
        rcases List.mem_append.mp h with h1 | h1
        · exact Or.inl h1
        · exact Or.inr (by simpa using h1)
    · rw [if_neg hj] at h
      exact Or.inl h

/-- The `addParent` keeps every existing parent entry. -/
theorem parentsOf_addParent_keep (s : SpiderState) (c p j x : Nat)
    (h : x ∈ s.parentsOf j) : x ∈ (s.addParent c p).parentsOf j := by
  unfold addParent
  cases hn : s.nodeOf j with
  | none => rw [parentsOf_of_none _ _ hn] at h; simp at h
  | some n =>
    rw [parentsOf_of_some _ _ _ hn] at h
    rw [parentsOf_updateNode_of_some _ _ _ _ _ hn]
    by_cases hj : j = c
    · rw [if_pos hj]
      simp only [setAdd]
      by_cases hp : p ∈ n.parents
      · rw [if_pos hp]; exact h
      · rw [if_neg hp]; exact List.mem_append.mpr (Or.inl h)
    · rw [if_neg hj]; exact h

theorem addParent_nextId (s : SpiderState) (c p : Nat) :
    (s.addParent c p).nextId = s.nextId := rfl

/-- The `storeSet` leaves the node heap alone. -/
theorem storeSet_nodes (s : SpiderState) (t p : String) (i : Nat) :
    (s.storeSet t p i).nodes = s.nodes := by
  unfold storeSet
  split <;> rfl

theorem storeSet_nextId (s : SpiderState) (t p : String) (i : Nat) :
    (s.storeSet t p i).nextId = s.nextId := by
  unfold storeSet
  split <;> rfl

theorem parentsOf_storeSet (s : SpiderState) (t p : String) (i j : Nat) :
    (s.storeSet t p i).parentsOf j = s.parentsOf j := by
  unfold parentsOf nodeOf
  rw [storeSet_nodes]

/-- After `storeSet`, the key resolves to the stored id. -/
theorem storeLookup_storeSet_self (s : SpiderState) (t p : String) (i : Nat) :
    (s.storeSet t p i).storeLookup t p = some i := by
  unfold storeSet
  cases hl : s.storeLookup t p with
  | some j =>
    unfold storeLookup at hl ⊢
    rw [find?_map_keyFixed _ _ _
      (fun kv => by by_cases h : kv.1 = (t, p) <;> simp [h])]
    cases hf : s.fileStore.find? (fun kv => kv.1 = (t, p)) with
    | none => rw [hf] at hl; simp at hl
    | some kv =>
      have hk : kv.1 = (t, p) := by simpa using List.find?_some hf
      simp [hk]
  | none =>
    unfold storeLookup at hl ⊢
    rw [List.find?_append]
    cases hf : s.fileStore.find? (fun kv => kv.1 = (t, p)) with
    | some kv => rw [hf] at hl; simp at hl
    | none => simp

end SpiderState

/-- The `finishCreate` registers the new node under its key. -/
theorem finishCreate_lookup (t p idf : String) (ip ci : List Nat)
    (s : SpiderState) :
    ((finishCreate t p idf ip ci s).2).storeLookup t p =
      some (finishCreate t p idf ip ci s).1 :=
  SpiderState.storeLookup_storeSet_self _ t p _

/-- Memoized hit: a stored, non-forced node is returned with the state
untouched. -/
theorem create_memo_hit (env : SpiderEnv) (fuel : Nat) (p : String)
    (s : SpiderState) (i : Nat)
    (h : s.storeLookup (env.getId p) p = some i) :
    create env (fuel + 1) p false s = .ok (i, s) := by
  simp only [create, h]

/-- The `create` on a fresh, non-forced path: resolve children from the
unchanged state, then construct with an empty initial parent list. -/
theorem create_miss_noforce (env : SpiderEnv) (fuel : Nat) (p : String)
    (s : SpiderState) (hst : s.storeLookup (env.getId p) p = none) :
    create env (fuel + 1) p false s =
      match createList (fun p s => create env fuel p false s)
          (childPathsOf env p (env.getId p)) s with
      | .error e => .error e
      | .ok (childIds, s₂) =>
          .ok (finishCreate (env.getId p) p
            (identifierFrom (env.cacheData p (env.getId p))) [] childIds s₂) := by
  simp only [create, hst]

/-- The `create` on a fresh path with the force flag: children are resolved,
then the construction step fails on the absent stored node. -/
theorem create_miss_force (env : SpiderEnv) (fuel : Nat) (p : String)
    (s : SpiderState) (hst : s.storeLookup (env.getId p) p = none) :
    create env (fuel + 1) p true s =
      match createList (fun p s => create env fuel p false s)
          (childPathsOf env p (env.getId p)) s with
      | .error e => .error e
      | .ok (childIds, s₂) => .error .spreadUndefined := by
  simp only [create, hst]

/-- The `create` on a stored path with the force flag: detach the stored node
from its children first, resolve children, then construct carrying the
stored node's current parent set. -/
theorem create_hit_force (env : SpiderEnv) (fuel : Nat) (p : String)
    (s : SpiderState) (oldId : Nat)
    (hst : s.storeLookup (env.getId p) p = some oldId) :
    create env (fuel + 1) p true s =
      match createList (fun p s => create env fuel p false s)
          (childPathsOf env p (env.getId p))
          (detachFromChildren s oldId (s.childrenOf oldId)) with
      | .error e => .error e
      | .ok (childIds, s₂) =>
          .ok (finishCreate (env.getId p) p
            (identifierFrom (env.cacheData p (env.getId p)))
            (s₂.parentsOf oldId) childIds s₂) := by
  simp only [create, hst]

/-- Any successful `create` leaves the registry pointing the key at the
returned node. -/
theorem create_ok_lookup (env : SpiderEnv) :
    ∀ (fuel : Nat) (p : String) (force : Bool) (s : SpiderState)
      (i : Nat) (s' : SpiderState),
      create env fuel p force s = .ok (i, s') →
      s'.storeLookup (env.getId p) p = some i := by
  intro fuel p force s i s' h
  match fuel with
  | 0 => simp [create] at h
  | fuel + 1 =>
    cases hst : s.storeLookup (env.getId p) p with
    | some j =>
      cases force with
      | false =>
        rw [create_memo_hit env fuel p s j hst] at h
        simp only [Except.ok.injEq, Prod.mk.injEq] at h
        obtain ⟨hi, hs⟩ := h
        subst hi
        subst hs
        exact hst
      | true =>
        rw [create_hit_force env fuel p s j hst] at h
        cases hcl : createList (fun p s => create env fuel p false s)
            (childPathsOf env p (env.getId p))
            (detachFromChildren s j (s.childrenOf j)) with
        | error e => rw [hcl] at h; simp at h
        | ok v =>
          obtain ⟨childIds, s₂⟩ := v
          rw [hcl] at h
          simp only [Except.ok.injEq] at h
          have hl := finishCreate_lookup (env.getId p) p
            (identifierFrom (env.cacheData p (env.getId p)))
            (s₂.parentsOf j) childIds s₂
          rw [h] at hl
          exact hl
    | none =>
      cases force with
      | false =>
        rw [create_miss_noforce env fuel p s hst] at h
        cases hcl : createList (fun p s => create env fuel p false s)
            (childPathsOf env p (env.getId p)) s with
        | error e => rw [hcl] at h; simp at h
        | ok v =>
          obtain ⟨childIds, s₂⟩ := v
          rw [hcl] at h
          simp only [Except.ok.injEq] at h
          have hl := finishCreate_lookup (env.getId p) p
            (identifierFrom (env.cacheData p (env.getId p)))
            [] childIds s₂
          rw [h] at hl
          exact hl
      | true =>
        rw [create_miss_force env fuel p s hst] at h
        cases hcl : createList (fun p s => create env fuel p false s)
            (childPathsOf env p (env.getId p)) s with
        | error e => rw [hcl] at h; simp at h
        | ok v => rw [hcl] at h; simp at h

/-- C8: `File.create` is memoized: after a successful non-forced call for
a path, a second non-forced call with the identical `(fileType, filePath)`
key returns the very same node id and leaves the whole state — registry
and every node's edges — unchanged. -/
theorem C8_create_memoized (env : SpiderEnv) (fuel fuel' : Nat)
    (p : String) (s s₁ : SpiderState) (i : Nat)
    (h : create env fuel p false s = .ok (i, s₁)) :
    create env (fuel' + 1) p false s₁ = .ok (i, s₁) :=
  create_memo_hit env fuel' p s₁ i
    (create_ok_lookup env fuel p false s i s₁ h)

/-- C8 witness: creating `"a"` in the empty registry, then calling again. -/
theorem C8_witness :
    create (SpiderEnv.mk (fun _ => "t") (fun _ => none) (fun _ _ => [])
        (fun _ _ _ => [])) 2 "a" false
      ⟨[(("t", "a"), 0)], [(0, FileNode.mk "a" "unknown" [] [])], 1⟩ =
    .ok (0,
      ⟨[(("t", "a"), 0)], [(0, FileNode.mk "a" "unknown" [] [])], 1⟩) :=
  C8_create_memoized
    (SpiderEnv.mk (fun _ => "t") (fun _ => none) (fun _ _ => [])
      (fun _ _ _ => []))
    1 1 "a" ⟨[], [], 0⟩ _ 0 (by rfl)

/-- C10: for a `(fileType, filePath)` key with no node in the registry,
`File.create` with the force flag never returns a node: the construction
step spreads `storedFile?.parents` of the absent stored node, which
fails; forced update succeeds only when a node for the path already
exists. -/
theorem C10_force_absent_fails (env : SpiderEnv) (fuel : Nat) (p : String)
    (s : SpiderState)
    (h : s.storeLookup (env.getId p) p = none) :
    exceptIsOk (create env fuel p true s) = false := by
  match fuel with
  | 0 => rfl
  | fuel + 1 =>
    rw [create_miss_force env fuel p s h]
    cases hcl : createList (fun p s => create env fuel p false s)
        (childPathsOf env p (env.getId p)) s with
    | error e => rfl
    | ok v => rfl

/-! ## State-evolution lemmas for C7 -/

theorem mem_setAdd (l : List Nat) (x v : Nat) :
    v ∈ setAdd l x ↔ v ∈ l ∨ v = x := by
  unfold setAdd
  by_cases hx : x ∈ l
  · rw [if_pos hx]
    constructor
    · exact Or.inl
    · rintro (h | rfl) <;> [exact h; exact hx]
  · rw [if_neg hx]
    simp [List.mem_append]

theorem nodup_setAdd (l : List Nat) (x : Nat) (h : l.Nodup) :
    (setAdd l x).Nodup := by
  unfold setAdd
  by_cases hx : x ∈ l
  · rwa [if_pos hx]
  · rw [if_neg hx]
    refine List.Nodup.append h (List.nodup_singleton x) ?_
    intro a ha hax
    rw [List.mem_singleton] at hax
    subst hax
    exact hx ha

theorem mem_foldl_setAdd (l : List Nat) :
    ∀ (acc : List Nat) (v : Nat),
      v ∈ l.foldl setAdd acc ↔ v ∈ acc ∨ v ∈ l := by
  induction l with
  | nil => intro acc v; simp
  | cons x xs ih =>
    intro acc v
    rw [List.foldl_cons, ih, mem_setAdd]
    constructor
    · rintro ((h | h) | h)
      · exact Or.inl h
      · exact Or.inr (h ▸ List.mem_cons_self x xs)
      · exact Or.inr (List.mem_cons_of_mem x h)
    · rintro (h | h)
      · exact Or.inl (Or.inl h)
      · rcases List.mem_cons.mp h with rfl | h
        · exact Or.inl (Or.inr rfl)
        · exact Or.inr h

theorem nodup_foldl_setAdd (l : List Nat) :
    ∀ acc : List Nat, acc.Nodup → (l.foldl setAdd acc).Nodup := by
  induction l with
  | nil => intro acc h; exact h
  | cons x xs ih =>
    intro acc h
    exact ih (setAdd acc x) (nodup_setAdd acc x h)


namespace SpiderState

/-- The `updateNode` keeps the node key list. -/
theorem updateNode_nodes_keys (s : SpiderState) (i : Nat)
    (f : FileNode → FileNode) :
    (s.updateNode i f).nodes.map Prod.fst = s.nodes.map Prod.fst := by
  unfold updateNode
  rw [List.map_map]
  congr 1
  funext kv
  by_cases h : kv.1 = i <;> simp [h]

end SpiderState

/-- Boundedness transfers along states agreeing on keys, registry and
allocator. -/
theorem bounded_of_eq_parts (s s' : SpiderState)
    (hns : s'.nodes.map Prod.fst = s.nodes.map Prod.fst)
    (hfs : s'.fileStore = s.fileStore) (hn : s'.nextId = s.nextId)
    (hb : Bounded s) : Bounded s' := by
  obtain ⟨h1, h2⟩ := hb
  constructor
  · intro kv hkv
    rw [hfs] at hkv
    rw [hn]
    exact h1 kv hkv
  · intro kv hkv
    rw [hn]
    have hmem : kv.1 ∈ s'.nodes.map Prod.fst := List.mem_map.mpr ⟨kv, hkv, rfl⟩
    rw [hns] at hmem
    obtain ⟨kv₀, hkv₀, hk⟩ := List.mem_map.mp hmem
    rw [← hk]
    exact h2 kv₀ hkv₀

theorem bounded_updateNode (s : SpiderState) (i : Nat)
    (f : FileNode → FileNode) (hb : Bounded s) :
    Bounded (s.updateNode i f) :=
  bounded_of_eq_parts s (s.updateNode i f)
    (SpiderState.updateNode_nodes_keys s i f) rfl rfl hb

/-- The `detachFromChildren` does not touch the allocator. -/
theorem detach_nextId (oldId : Nat) (children : List Nat) :
    ∀ s : SpiderState,
      (detachFromChildren s oldId children).nextId = s.nextId := by
  induction children with
  | nil => intro s; rfl
  | cons c cs ih =>
    intro s
    unfold detachFromChildren at ih ⊢
    rw [List.foldl_cons, ih]
    rfl

/-- The `detachFromChildren` does not touch the registry. -/
theorem detach_fileStore (oldId : Nat) (children : List Nat) :
    ∀ s : SpiderState,
      (detachFromChildren s oldId children).fileStore = s.fileStore := by
  induction children with
  | nil => intro s; rfl
  | cons c cs ih =>
    intro s
    unfold detachFromChildren at ih ⊢
    rw [List.foldl_cons, ih]
    rfl

theorem bounded_detach (oldId : Nat) (children : List Nat) :
    ∀ s : SpiderState, Bounded s →
      Bounded (detachFromChildren s oldId children) := by
  induction children with
  | nil => intro s hb; exact hb
  | cons c cs ih =>
    intro s hb
    unfold detachFromChildren at ih ⊢
    rw [List.foldl_cons]
    exact ih _ (bounded_updateNode s c _ hb)

/-- A node untouched by the detach loop keeps its parent set. -/
theorem parentsOf_detach_other (oldId : Nat) (children : List Nat) :
    ∀ (s : SpiderState) (j : Nat), j ∉ children →
      (detachFromChildren s oldId children).parentsOf j = s.parentsOf j := by
  induction children with
  | nil => intro s j _; rfl
  | cons c cs ih =>
    intro s j hj
    unfold detachFromChildren at ih ⊢
    rw [List.foldl_cons, ih _ j (fun h => hj (List.mem_cons_of_mem c h)),
      SpiderState.parentsOf_removeParent_other s c oldId j
        (fun h => hj (h ▸ List.mem_cons_self c cs))]

/-- The detach loop never adds a parent entry. -/
theorem parentsOf_detach_subset (oldId : Nat) (children : List Nat) :
    ∀ (s : SpiderState) (j x : Nat),
      x ∈ (detachFromChildren s oldId children).parentsOf j →
      x ∈ s.parentsOf j := by
  induction children with
  | nil => intro s j x h; exact h
  | cons c cs ih =>
    intro s j x h
    unfold detachFromChildren at ih h
    rw [List.foldl_cons] at h
    exact SpiderState.parentsOf_removeParent_subset s c oldId j x (ih _ j x h)

/-- A node already free of the detached parent stays free of it. -/
theorem detach_absent_keep (oldId : Nat) (children : List Nat) :
    ∀ (s : SpiderState) (j : Nat), oldId ∉ s.parentsOf j →
      oldId ∉ (detachFromChildren s oldId children).parentsOf j := by
  intro s j habs hmem
  exact habs (parentsOf_detach_subset oldId children s j oldId hmem)

/-- After the detach loop, no listed child holds the detached parent. -/
theorem detach_no_oldId (oldId : Nat) (children : List Nat) :
    ∀ (s : SpiderState) (c : Nat), c ∈ children →
      oldId ∉ (detachFromChildren s oldId children).parentsOf c := by
  induction children with
  | nil => intro s c h; simp at h
  | cons c₀ cs ih =>
    intro s c hc
    unfold detachFromChildren at ih ⊢
    rw [List.foldl_cons]
    rcases List.mem_cons.mp hc with rfl | hc
    · exact detach_absent_keep oldId cs (s.removeParent c oldId) c
        (SpiderState.parentsOf_removeParent_self s c oldId)
    · exact ih _ c hc

/-- A bounded registry's stored ids are below the allocator. -/
theorem storeLookup_lt_of_bounded (s : SpiderState) (t p : String)
    (i : Nat) (hb : Bounded s) (h : s.storeLookup t p = some i) :
    i < s.nextId := by
  unfold SpiderState.storeLookup at h
  cases hf : s.fileStore.find? (fun kv => kv.1 = (t, p)) with
  | none => rw [hf] at h; simp at h
  | some kv =>
    rw [hf] at h
    have hm := List.mem_of_find?_eq_some hf
    have : kv.2 = i := by simpa using h
    rw [← this]
    exact hb.1 kv hm

/-- In a bounded state, the next id is dangling. -/
theorem nodeOf_fresh_of_bounded (s : SpiderState) (hb : Bounded s) :
    s.nodeOf s.nextId = none := by
  unfold SpiderState.nodeOf
  rw [List.find?_eq_none.mpr]
  · rfl
  · intro kv hkv
    simp only [decide_eq_true_eq]
    exact Nat.ne_of_lt (hb.2 kv hkv)

/-- Node lookup across an appended node entry: an existing node wins. -/
theorem nodeOf_mk_append_of_some (fs : List ((String × String) × Nat))
    (ns : List (Nat × FileNode)) (m k : Nat) (n : FileNode) (j : Nat)
    (n' : FileNode)
    (h : (SpiderState.mk fs ns m).nodeOf j = some n') :
    ∀ m' : Nat, (SpiderState.mk fs (ns ++ [(k, n)]) m').nodeOf j = some n' := by
  intro m'
  unfold SpiderState.nodeOf at h ⊢
  rw [List.find?_append]
  cases hf : ns.find? (fun kv => kv.1 = j) with
  | none => rw [hf] at h; simp at h
  | some kv =>
    rw [hf] at h
    simpa using h

/-- Node lookup across an appended fresh node entry. -/
theorem nodeOf_mk_append_fresh (fs : List ((String × String) × Nat))
    (ns : List (Nat × FileNode)) (m k : Nat) (n : FileNode)
    (h : (SpiderState.mk fs ns m).nodeOf k = none) :
    ∀ m' : Nat, (SpiderState.mk fs (ns ++ [(k, n)]) m').nodeOf k = some n := by
  intro m'
  unfold SpiderState.nodeOf at h ⊢
  rw [List.find?_append]
  cases hf : ns.find? (fun kv => kv.1 = k) with
  | some kv => rw [hf] at h; simp at h
  | none => simp [List.find?]

/-- Node lookup of an id that is neither present nor the appended one. -/
theorem nodeOf_mk_append_of_none (fs : List ((String × String) × Nat))
    (ns : List (Nat × FileNode)) (m k : Nat) (n : FileNode) (j : Nat)
    (h : (SpiderState.mk fs ns m).nodeOf j = none) (hjk : j ≠ k) :
    ∀ m' : Nat, (SpiderState.mk fs (ns ++ [(k, n)]) m').nodeOf j = none := by
  intro m'
  unfold SpiderState.nodeOf at h ⊢
  rw [List.find?_append]
  cases hf : ns.find? (fun kv => kv.1 = j) with
  | some kv => rw [hf] at h; simp at h
  | none => simp [List.find?, Ne.symm hjk]

/-- The `addParent` loop over the resolved children: allocator fixed. -/
theorem foldAddParent_nextId (q : Nat) (ci : List Nat) :
    ∀ s : SpiderState,
      (ci.foldl (fun s c => s.addParent c q) s).nextId = s.nextId := by
  induction ci with
  | nil => intro s; rfl
  | cons c cs ih =>
    intro s
    rw [List.foldl_cons, ih]
    rfl

theorem bounded_foldAddParent (q : Nat) (ci : List Nat) :
    ∀ s : SpiderState, Bounded s →
      Bounded (ci.foldl (fun s c => s.addParent c q) s) := by
  induction ci with
  | nil => intro s hb; exact hb
  | cons c cs ih =>
    intro s hb
    rw [List.foldl_cons]
    exact ih _ (bounded_updateNode s c _ hb)

/-- The `addParent` loop adds at most the new parent id. -/
theorem parentsOf_foldAddParent_mem (q : Nat) (ci : List Nat) :
    ∀ (s : SpiderState) (j x : Nat),
      x ∈ (ci.foldl (fun s c => s.addParent c q) s).parentsOf j →
      x ∈ s.parentsOf j ∨ x = q := by
  induction ci with
  | nil => intro s j x h; exact Or.inl h
  | cons c cs ih =>
    intro s j x h
    rw [List.foldl_cons] at h
    rcases ih _ j x h with h' | h'
    · exact SpiderState.parentsOf_addParent_mem s c q j x h'
    · exact Or.inr h'

/-- The `addParent` loop keeps every existing parent entry. -/
theorem parentsOf_foldAddParent_keep (q : Nat) (ci : List Nat) :
    ∀ (s : SpiderState) (j x : Nat), x ∈ s.parentsOf j →
      x ∈ (ci.foldl (fun s c => s.addParent c q) s).parentsOf j := by
  induction ci with
  | nil => intro s j x h; exact h
  | cons c cs ih =>
    intro s j x h
    rw [List.foldl_cons]
    exact ih _ j x (SpiderState.parentsOf_addParent_keep s c q j x h)

/-- A node update preserving the parents field preserves every
back-reference set. -/
theorem parentsOf_updateNode_keepP (s : SpiderState) (i : Nat)
    (f : FileNode → FileNode) (hf : ∀ n, (f n).parents = n.parents)
    (j : Nat) : (s.updateNode i f).parentsOf j = s.parentsOf j := by
  cases hn : s.nodeOf j with
  | none =>
    rw [SpiderState.parentsOf_updateNode_of_none _ _ _ _ hn,
      SpiderState.parentsOf_of_none _ _ hn]
  | some n =>
    rw [SpiderState.parentsOf_updateNode_of_some _ _ _ _ _ hn,
      SpiderState.parentsOf_of_some _ _ _ hn]
    by_cases hj : j = i
    · rw [if_pos hj, hf]
    · rw [if_neg hj]

theorem bounded_storeSet (s : SpiderState) (t p : String) (i : Nat)
    (hb : Bounded s) (hi : i < s.nextId) : Bounded (s.storeSet t p i) := by
  unfold SpiderState.storeSet
  cases hl : s.storeLookup t p with
  | some j =>
    constructor
    · intro kv hkv
      obtain ⟨kv₀, hkv₀, hkeq⟩ := List.mem_map.mp hkv
      by_cases hk : kv₀.1 = (t, p)
      · rw [if_pos hk] at hkeq
        rw [← hkeq]
        exact hi
      · rw [if_neg hk] at hkeq
        rw [← hkeq]
        exact hb.1 kv₀ hkv₀
    · intro kv hkv
      exact hb.2 kv hkv
  | none =>
    constructor
    · intro kv hkv
      rcases List.mem_append.mp hkv with h | h
      · exact hb.1 kv h
      · rw [List.mem_singleton] at h
        subst h
        exact hi
    · intro kv hkv
      exact hb.2 kv hkv

theorem finishCreate_fst (t p idf : String) (ip ci : List Nat)
    (s : SpiderState) : (finishCreate t p idf ip ci s).1 = s.nextId := rfl

theorem finishCreate_nextId (t p idf : String) (ip ci : List Nat)
    (s : SpiderState) :
    (finishCreate t p idf ip ci s).2.nextId = s.nextId + 1 := by
  simp only [finishCreate]
  rw [SpiderState.storeSet_nextId, SpiderState.updateNode_nextId,
    foldAddParent_nextId]

/-- Parent entries after `finishCreate`: an old entry, the new node's id,
or a carried-over initial parent on the new node itself. -/
theorem finishCreate_parents_mem (t p idf : String) (ip ci : List Nat)
    (s : SpiderState) (j x : Nat)
    (h : x ∈ (finishCreate t p idf ip ci s).2.parentsOf j) :
    x ∈ s.parentsOf j ∨ x = s.nextId ∨ (j = s.nextId ∧ x ∈ ip) := by
  simp only [finishCreate] at h
  rw [SpiderState.parentsOf_storeSet] at h
  rw [parentsOf_updateNode_keepP _ _ (fun n => { n with identifier := idf }) (fun n => rfl)] at h
  rcases parentsOf_foldAddParent_mem s.nextId ci _ j x h with h' | h'
  · cases hn : s.nodeOf j with
    | some n' =>
      rw [SpiderState.parentsOf_of_some _ _ _
        (nodeOf_mk_append_of_some s.fileStore s.nodes s.nextId s.nextId _ j
          n' hn _)] at h'
      exact Or.inl ((SpiderState.parentsOf_of_some s j n' hn).symm ▸ h')
    | none =>
      by_cases hj : j = s.nextId
      · rw [hj] at h'
        rw [SpiderState.parentsOf_of_some _ _ _
          (nodeOf_mk_append_fresh s.fileStore s.nodes s.nextId s.nextId _
            (hj ▸ hn) _)] at h'
        rcases (mem_foldl_setAdd ip [] x).mp h' with h'' | h''
        · simp at h''
        · exact Or.inr (Or.inr ⟨hj, h''⟩)
      · rw [SpiderState.parentsOf_of_none _ _
          (nodeOf_mk_append_of_none s.fileStore s.nodes s.nextId s.nextId _
            j hn hj _)] at h'
        simp at h'
  · exact Or.inr (Or.inl h')

/-- The `finishCreate` keeps every existing parent entry. -/
theorem finishCreate_parents_keep (t p idf : String) (ip ci : List Nat)
    (s : SpiderState) (j x : Nat) (h : x ∈ s.parentsOf j) :
    x ∈ (finishCreate t p idf ip ci s).2.parentsOf j := by
  simp only [finishCreate]
  rw [SpiderState.parentsOf_storeSet,
    parentsOf_updateNode_keepP _ _ (fun n => { n with identifier := idf }) (fun n => rfl)]
  apply parentsOf_foldAddParent_keep
  cases hn : s.nodeOf j with
  | none =>
    rw [SpiderState.parentsOf_of_none _ _ hn] at h
    simp at h
  | some n' =>
    rw [SpiderState.parentsOf_of_some _ _ _
      (nodeOf_mk_append_of_some s.fileStore s.nodes s.nextId s.nextId _ j
        n' hn _)]
    rw [SpiderState.parentsOf_of_some _ _ _ hn] at h
    exact h

/-- The node built by `finishCreate` carries every initial parent. -/
theorem finishCreate_new_parents (t p idf : String) (ip ci : List Nat)
    (s : SpiderState) (x : Nat) (hfresh : s.nodeOf s.nextId = none)
    (hx : x ∈ ip) :
    x ∈ (finishCreate t p idf ip ci s).2.parentsOf s.nextId := by
  simp only [finishCreate]
  rw [SpiderState.parentsOf_storeSet,
    parentsOf_updateNode_keepP _ _ (fun n => { n with identifier := idf }) (fun n => rfl)]
  apply parentsOf_foldAddParent_keep
  rw [SpiderState.parentsOf_of_some _ _ _
    (nodeOf_mk_append_fresh s.fileStore s.nodes s.nextId s.nextId _ hfresh _)]
  exact (mem_foldl_setAdd ip [] x).mpr (Or.inr hx)

theorem bounded_finishCreate (t p idf : String) (ip ci : List Nat)
    (s : SpiderState) (hb : Bounded s) :
    Bounded (finishCreate t p idf ip ci s).2 := by
  simp only [finishCreate]
  apply bounded_storeSet
  · apply bounded_updateNode
    apply bounded_foldAddParent
    constructor
    · intro kv hkv
      exact Nat.lt_succ_of_lt (hb.1 kv hkv)
    · intro kv hkv
      rcases List.mem_append.mp hkv with h | h
      · exact Nat.lt_succ_of_lt (hb.2 kv h)
      · rw [List.mem_singleton] at h
        subst h
        exact Nat.lt_succ_self _
  · rw [SpiderState.updateNode_nextId, foldAddParent_nextId]
    exact Nat.lt_succ_self _

theorem stateEvolve_refl (s : SpiderState) : StateEvolve s s :=
  ⟨Nat.le_refl _, fun _ x h => Or.inl h, fun _ _ h => h⟩

theorem stateEvolve_trans {s₁ s₂ s₃ : SpiderState}
    (h1 : StateEvolve s₁ s₂) (h2 : StateEvolve s₂ s₃) :
    StateEvolve s₁ s₃ := by
  refine ⟨Nat.le_trans h1.mono h2.mono, ?_,
    fun c x h => h2.parentsKeep c x (h1.parentsKeep c x h)⟩
  intro c x h
  rcases h2.parentsFresh c x h with h' | h'
  · exact h1.parentsFresh c x h'
  · exact Or.inr (Nat.le_trans h1.mono h')

/-- The `finishCreate` with an empty initial parent list is an evolution. -/
theorem finishCreate_evolve (t p idf : String) (ci : List Nat)
    (s : SpiderState) : StateEvolve s (finishCreate t p idf [] ci s).2 := by
  refine ⟨?_, ?_, ?_⟩
  · rw [finishCreate_nextId]
    exact Nat.le_succ _
  · intro c x h
    rcases finishCreate_parents_mem t p idf [] ci s c x h with h' | h' | h'
    · exact Or.inl h'
    · exact Or.inr (Nat.le_of_eq h'.symm)
    · exact absurd h'.2 (List.not_mem_nil x)
  · intro c x h
    exact finishCreate_parents_keep t p idf [] ci s c x h

/-- The child-resolution loop composes the step's evolutions. -/
theorem createList_evolve
    (step : String → SpiderState → Except CreateErr (Nat × SpiderState))
    (hstep : ∀ p s i s', step p s = .ok (i, s') →
      StateEvolve s s' ∧ (Bounded s → Bounded s' ∧ i < s'.nextId)) :
    ∀ (ps : List String) (s : SpiderState) (ids : List Nat)
      (s' : SpiderState),
      createList step ps s = .ok (ids, s') →
      StateEvolve s s' ∧
        (Bounded s → Bounded s' ∧ ∀ j ∈ ids, j < s'.nextId) := by
  intro ps
  induction ps with
  | nil =>
    intro s ids s' h
    simp only [createList, Except.ok.injEq, Prod.mk.injEq] at h
    obtain ⟨h1, h2⟩ := h
    subst h1
    subst h2
    exact ⟨stateEvolve_refl s, fun hb => ⟨hb, by simp⟩⟩
  | cons q qs ih =>
    intro s ids s' h
    cases hs : step q s with
    | error e => simp only [createList, hs] at h; simp at h
    | ok v =>
      obtain ⟨i, s₁⟩ := v
      simp only [createList, hs] at h
      cases hcl : createList step qs s₁ with
      | error e => rw [hcl] at h; simp at h
      | ok w =>
        obtain ⟨ids₁, s₂⟩ := w
        rw [hcl] at h
        simp only [Except.ok.injEq, Prod.mk.injEq] at h
        obtain ⟨h1, h2⟩ := h
        subst h1
        subst h2
        obtain ⟨e1, b1⟩ := hstep q s i s₁ hs
        obtain ⟨e2, b2⟩ := ih s₁ ids₁ s₂ hcl
        refine ⟨stateEvolve_trans e1 e2, fun hb => ?_⟩
        obtain ⟨hb1, hi1⟩ := b1 hb
        obtain ⟨hb2, hi2⟩ := b2 hb1
        refine ⟨hb2, fun j hj => ?_⟩
        rcases List.mem_cons.mp hj with rfl | hj
        · exact Nat.lt_of_lt_of_le hi1 e2.mono
        · exact hi2 j hj

/-- A non-forced `create` is an evolution, preserves boundedness, and
returns an id below the final allocator. -/
theorem create_evolve (env : SpiderEnv) :
    ∀ (fuel : Nat) (p : String) (s : SpiderState) (i : Nat)
      (s' : SpiderState),
      create env fuel p false s = .ok (i, s') →
      StateEvolve s s' ∧ (Bounded s → Bounded s' ∧ i < s'.nextId) := by
  intro fuel
  induction fuel with
  | zero => intro p s i s' h; simp [create] at h
  | succ fuel ih =>
    intro p s i s' h
    cases hst : s.storeLookup (env.getId p) p with
    | some j =>
      rw [create_memo_hit env fuel p s j hst] at h
      simp only [Except.ok.injEq, Prod.mk.injEq] at h
      obtain ⟨h1, h2⟩ := h
      subst h1
      subst h2
      exact ⟨stateEvolve_refl s,
        fun hb => ⟨hb, storeLookup_lt_of_bounded s _ p _ hb hst⟩⟩
    | none =>
      rw [create_miss_noforce env fuel p s hst] at h
      cases hcl : createList (fun p s => create env fuel p false s)
          (childPathsOf env p (env.getId p)) s with
      | error e => rw [hcl] at h; simp at h
      | ok v =>
        obtain ⟨ci, s₂⟩ := v
        rw [hcl] at h
        simp only [Except.ok.injEq] at h
        obtain ⟨e1, b1⟩ := createList_evolve _
          (fun q sq iq sq' hq => ih q sq iq sq' hq) _ s ci s₂ hcl
        have hi : i = s₂.nextId := by
          have h1 := congrArg Prod.fst h
          rw [finishCreate_fst] at h1
          exact h1.symm
        have hs' : (finishCreate (env.getId p) p
            (identifierFrom (env.cacheData p (env.getId p))) [] ci s₂).2 =
            s' := congrArg Prod.snd h
        have e2 := finishCreate_evolve (env.getId p) p
          (identifierFrom (env.cacheData p (env.getId p))) ci s₂
        rw [hs'] at e2
        refine ⟨stateEvolve_trans e1 e2, fun hb => ?_⟩
        obtain ⟨hb2, _⟩ := b1 hb
        have hbf := bounded_finishCreate (env.getId p) p
          (identifierFrom (env.cacheData p (env.getId p))) [] ci s₂ hb2
        rw [hs'] at hbf
        refine ⟨hbf, ?_⟩
        have hn : s'.nextId = s₂.nextId + 1 := by
          rw [← hs', finishCreate_nextId]
        rw [hi, hn]
        exact Nat.lt_succ_self _

/-! ## Traversal lemmas for C1 -/

/-- In an edge-decreasing graph, out-edges go to strictly smaller ids. -/
theorem childrenOf_lt (s : SpiderState) (hED : EdgesDecrease s) (i c : Nat)
    (hc : c ∈ s.childrenOf i) : c < i := by
  unfold SpiderState.childrenOf at hc
  cases hn : s.nodeOf i with
  | none => rw [hn] at hc; simp at hc
  | some n =>
    rw [hn] at hc
    unfold SpiderState.nodeOf at hn
    cases hf : s.nodes.find? (fun kv => kv.1 = i) with
    | none => rw [hf] at hn; simp at hn
    | some kv =>
      rw [hf] at hn
      have hmem := List.mem_of_find?_eq_some hf
      have hkey : kv.1 = i := by simpa using List.find?_some hf
      have hkv2 : kv.2 = n := by simpa using hn
      have := hED kv hmem c (by rw [hkv2]; exact hc)
      rwa [hkey] at this

/-- One-step unfolding of reachability through at least one edge. -/
theorem reachesPlus_iff (s : SpiderState) (i m : Nat) :
    ReachesPlus s i m ↔ ∃ c ∈ s.childrenOf i, m = c ∨ ReachesPlus s c m := by
  constructor
  · intro h
    cases h with
    | base hc => exact ⟨_, hc, Or.inl rfl⟩
    | step hc hr => exact ⟨_, hc, Or.inr hr⟩
  · rintro ⟨c, hc, rfl | hr⟩
    · exact ReachesPlus.base hc
    · exact ReachesPlus.step hc hr

/-- Specification of the `forEach` collection body, generic in the
recursive step. -/
theorem deepList_spec (s : SpiderState) (step : Nat → Option (List Nat)) :
    ∀ (cs : List Nat),
      (∀ c ∈ cs, ∃ l, step c = some l ∧ l.Nodup ∧
        (∀ m, m ∈ l ↔ ReachesPlus s c m)) →
      ∀ acc : List Nat, acc.Nodup →
        ∃ l, deepList step cs acc = some l ∧ l.Nodup ∧
          (∀ m, m ∈ l ↔ m ∈ acc ∨ ∃ c ∈ cs, m = c ∨ ReachesPlus s c m) := by
  intro cs
  induction cs with
  | nil =>
    intro _ acc hacc
    exact ⟨acc, rfl, hacc, by simp⟩
  | cons c cs ih =>
    intro hstep acc hacc
    obtain ⟨lc, hlc, hlcnd, hlcmem⟩ := hstep c (List.mem_cons_self c cs)
    have hacc' : (lc.foldl setAdd (setAdd acc c)).Nodup :=
      nodup_foldl_setAdd lc (setAdd acc c) (nodup_setAdd acc c hacc)
    obtain ⟨l, hl, hlnd, hlmem⟩ :=
      ih (fun c' hc' => hstep c' (List.mem_cons_of_mem c hc'))
        (lc.foldl setAdd (setAdd acc c)) hacc'
    refine ⟨l, ?_, hlnd, ?_⟩
    · rw [deepList, hlc]
      exact hl
    · intro m
      rw [hlmem m, mem_foldl_setAdd, mem_setAdd, hlcmem m]
      constructor
      · rintro (((h | rfl) | h) | h)
        · exact Or.inl h
        · exact Or.inr ⟨m, List.mem_cons_self m cs, Or.inl rfl⟩
        · exact Or.inr ⟨c, List.mem_cons_self c cs, Or.inr h⟩
        · obtain ⟨c', hc', hm⟩ := h
          exact Or.inr ⟨c', List.mem_cons_of_mem c hc', hm⟩
      · rintro (h | ⟨c', hc', hm⟩)
        · exact Or.inl (Or.inl (Or.inl h))
        · rcases List.mem_cons.mp hc' with rfl | hc'
          · rcases hm with rfl | hm
            · exact Or.inl (Or.inl (Or.inr rfl))
            · exact Or.inl (Or.inr hm)
          · exact Or.inr ⟨c', hc', hm⟩

/-- On edge-decreasing graphs, `deepConnectedFiles` completes with any
fuel above the start id and returns exactly the strictly-reachable set,
each node once. -/
theorem deep_spec (s : SpiderState) (hED : EdgesDecrease s) :
    ∀ (fuel i : Nat), i < fuel →
      ∃ l, deepConnectedFiles s fuel i = some l ∧ l.Nodup ∧
        (∀ m, m ∈ l ↔ ReachesPlus s i m) := by
  intro fuel
  induction fuel with
  | zero => intro i hi; exact absurd hi (Nat.not_lt_zero i)
  | succ fuel ih =>
    intro i hi
    obtain ⟨l, hl, hlnd, hlmem⟩ :=
      deepList_spec s (fun c => deepConnectedFiles s fuel c)
        (s.childrenOf i)
        (fun c hc => ih c (Nat.lt_of_lt_of_le (childrenOf_lt s hED i c hc)
          (Nat.lt_succ_iff.mp hi)))
        [] (List.nodup_nil)
    refine ⟨l, hl, hlnd, ?_⟩
    intro m
    rw [hlmem m, reachesPlus_iff]
    simp

/-- On the two-node cycle, the recursive collection exhausts any amount
of fuel: each level recurses into the opposite node. -/
theorem cyclic_deep_none : ∀ fuel : Nat,
    deepConnectedFiles cyclicPairState fuel 0 = none ∧
    deepConnectedFiles cyclicPairState fuel 1 = none := by
  intro fuel
  induction fuel with
  | zero => exact ⟨rfl, rfl⟩
  | succ fuel ih =>
    constructor
    · show deepList (fun c => deepConnectedFiles cyclicPairState fuel c)
        [1] [] = none
      rw [deepList]
      simp only [ih.2]
    · show deepList (fun c => deepConnectedFiles cyclicPairState fuel c)
        [0] [] = none
      rw [deepList]
      simp only [ih.1]

/-- C1 counterexample: on the graph where node A links node B and node B
links node A, `toDirectory`'s collection never completes — each recursive
call builds its own fresh set, no visited accumulator is shared, so the
claim's termination statement fails on cyclic graphs. -/
theorem C1_counterexample :
    (1 ∈ cyclicPairState.childrenOf 0 ∧ 0 ∈ cyclicPairState.childrenOf 1) ∧
    ¬ ∃ (fuel : Nat) (l : List Nat),
      toDirectoryFiles cyclicPairState fuel 0 = some l := by
  refine ⟨⟨by decide, by decide⟩, ?_⟩
  rintro ⟨fuel, l, h⟩
  unfold toDirectoryFiles at h
  rw [(cyclic_deep_none fuel).1] at h
  simp at h

/-- C1 (amended): on every dependency graph whose out-edges point to
strictly earlier-created nodes — as holds for all graphs `File.create`
builds, children being created before their parent — `toDirectory()`
terminates (with fuel beyond the start id) and its collected set contains
each node reachable from the starting node, the node itself included,
exactly once. -/
theorem C1_toDirectory_acyclic (s : SpiderState) (fuel i : Nat)
    (hED : EdgesDecrease s) (hfuel : i < fuel) :
    ∃ l, toDirectoryFiles s fuel i = some l ∧ l.Nodup ∧
      (∀ m, m ∈ l ↔ Reaches s i m) := by
  obtain ⟨d, hd, hdnd, hdmem⟩ := deep_spec s hED fuel i hfuel
  refine ⟨setAdd d i, ?_, nodup_setAdd d i hdnd, ?_⟩
  · unfold toDirectoryFiles
    rw [hd]
    rfl
  · intro m
    rw [mem_setAdd, hdmem m]
    unfold Reaches
    tauto

/-- C1 witness: a two-node acyclic graph (node 1 links node 0), collected
from node 1 with fuel 2. -/
theorem C1_witness :
    EdgesDecrease
      ⟨[(("t", "a"), 1), (("t", "b"), 0)],
        [(0, FileNode.mk "b" "unknown" [1] []),
          (1, FileNode.mk "a" "unknown" [] [0])], 2⟩ ∧
    (1 : Nat) < 2 ∧
    ∃ l, toDirectoryFiles
        ⟨[(("t", "a"), 1), (("t", "b"), 0)],
          [(0, FileNode.mk "b" "unknown" [1] []),
            (1, FileNode.mk "a" "unknown" [] [0])], 2⟩ 2 1 = some l ∧
      l.Nodup ∧
      (∀ m, m ∈ l ↔ Reaches
        ⟨[(("t", "a"), 1), (("t", "b"), 0)],
          [(0, FileNode.mk "b" "unknown" [1] []),
            (1, FileNode.mk "a" "unknown" [] [0])], 2⟩ 1 m) :=
  ⟨by decide, by decide,
    C1_toDirectory_acyclic _ 2 1 (by decide) (by decide)⟩

/-- C7: for a path whose node exists in the registry, forced `File.create`
first removes the existing node from the back-reference (parent) set of
every one of its current out-edge children — and nothing re-adds it, so
the old node is absent from those sets in the final state — and the
rebuilt node carries forward every entry of the previous node's in-edge
(parent) set. -/
theorem C7_force_rebuild (env : SpiderEnv) (fuel : Nat) (p : String)
    (s s' : SpiderState) (oldId newId : Nat) (oldNode : FileNode)
    (hb : Bounded s)
    (hlook : s.storeLookup (env.getId p) p = some oldId)
    (hnode : s.nodeOf oldId = some oldNode)
    (hEdge : ∀ c ∈ oldNode.connectedFiles, c < oldId)
    (hok : create env fuel p true s = .ok (newId, s')) :
    (∀ c ∈ oldNode.connectedFiles, oldId ∉ s'.parentsOf c) ∧
    (∀ x ∈ oldNode.parents, x ∈ s'.parentsOf newId) := by
  match fuel with
  | 0 => simp [create] at hok
  | fuel + 1 =>
    rw [create_hit_force env fuel p s oldId hlook] at hok
    cases hcl : createList (fun p s => create env fuel p false s)
        (childPathsOf env p (env.getId p))
        (detachFromChildren s oldId (s.childrenOf oldId)) with
    | error e => rw [hcl] at hok; simp at hok
    | ok v =>
      obtain ⟨ci, s₂⟩ := v
      rw [hcl] at hok
      simp only [Except.ok.injEq] at hok
      have hch : s.childrenOf oldId = oldNode.connectedFiles := by
        unfold SpiderState.childrenOf
        rw [hnode]
      have holdlt : oldId < s.nextId :=
        storeLookup_lt_of_bounded s _ p oldId hb hlook
      have hbd : Bounded (detachFromChildren s oldId (s.childrenOf oldId)) :=
        bounded_detach oldId _ s hb
      have hdnext :
          (detachFromChildren s oldId (s.childrenOf oldId)).nextId =
            s.nextId := detach_nextId oldId _ s
      obtain ⟨e1, b1⟩ := createList_evolve _
        (fun q sq iq sq' hq => create_evolve env fuel q sq iq sq' hq)
        _ _ ci s₂ hcl
      obtain ⟨hb2, _⟩ := b1 hbd
      have hnew : newId = s₂.nextId := by
        have h1 := congrArg Prod.fst hok
        rw [finishCreate_fst] at h1
        exact h1.symm
      have hs' : (finishCreate (env.getId p) p
          (identifierFrom (env.cacheData p (env.getId p)))
          (s₂.parentsOf oldId) ci s₂).2 = s' := congrArg Prod.snd hok
      have holdlt₂ : oldId < s₂.nextId :=
        Nat.lt_of_lt_of_le (hdnext ▸ holdlt) e1.mono
      constructor
      · intro c hc
        have h1 : oldId ∉
            (detachFromChildren s oldId (s.childrenOf oldId)).parentsOf c :=
          detach_no_oldId oldId (s.childrenOf oldId) s c
            (by rw [hch]; exact hc)
        have h2 : oldId ∉ s₂.parentsOf c := by
          intro hmem
          rcases e1.parentsFresh c oldId hmem with h' | h'
          · exact h1 h'
          · rw [hdnext] at h'
            exact absurd holdlt (Nat.not_lt_of_le h')
        intro hmem
        rw [← hs'] at hmem
        rcases finishCreate_parents_mem _ _ _ _ _ _ _ _ hmem with h' | h' | h'
        · exact h2 h'
        · exact absurd h' (Nat.ne_of_lt holdlt₂)
        · exact absurd h'.1
            (Nat.ne_of_lt (Nat.lt_trans (hEdge c hc) holdlt₂))
      · intro x hx
        have hx0 : x ∈ s.parentsOf oldId := by
          rw [SpiderState.parentsOf_of_some s oldId oldNode hnode]
          exact hx
        have hx1 : x ∈
            (detachFromChildren s oldId (s.childrenOf oldId)).parentsOf
              oldId := by
          rw [parentsOf_detach_other oldId (s.childrenOf oldId) s oldId ?_]
          · exact hx0
          · rw [hch]
            intro hmem
            exact absurd (hEdge oldId hmem) (Nat.lt_irrefl oldId)
        have hx2 : x ∈ s₂.parentsOf oldId := e1.parentsKeep oldId x hx1
        have hf := finishCreate_new_parents (env.getId p) p
          (identifierFrom (env.cacheData p (env.getId p)))
          (s₂.parentsOf oldId) ci s₂ x (nodeOf_fresh_of_bounded s₂ hb2) hx2
        rw [hs'] at hf
        rw [hnew]
        exact hf

/-- C7 witness: node 1 (path `a`, parent 0, out-edge to 0) is rebuilt with
force; node 0 loses back-reference 1, and new node 2 inherits parent 0. -/
theorem C7_witness :
    (∀ c ∈ (FileNode.mk "a" "u1" [0] [0]).connectedFiles,
      (1 : Nat) ∉ (SpiderState.mk [(("t", "a"), 2)]
        [(0, FileNode.mk "b" "u0" [] []), (1, FileNode.mk "a" "u1" [0] [0]),
          (2, FileNode.mk "a" "unknown" [0] [])] 3).parentsOf c) ∧
    (∀ x ∈ (FileNode.mk "a" "u1" [0] [0]).parents,
      x ∈ (SpiderState.mk [(("t", "a"), 2)]
        [(0, FileNode.mk "b" "u0" [] []), (1, FileNode.mk "a" "u1" [0] [0]),
          (2, FileNode.mk "a" "unknown" [0] [])] 3).parentsOf 2) :=
  C7_force_rebuild
    (SpiderEnv.mk (fun _ => "t") (fun _ => none) (fun _ _ => [])
      (fun _ _ _ => []))
    1 "a"
    ⟨[(("t", "a"), 1)],
      [(0, FileNode.mk "b" "u0" [1] []), (1, FileNode.mk "a" "u1" [0] [0])],
      2⟩
    (SpiderState.mk [(("t", "a"), 2)]
      [(0, FileNode.mk "b" "u0" [] []), (1, FileNode.mk "a" "u1" [0] [0]),
        (2, FileNode.mk "a" "unknown" [0] [])] 3)
    1 2 (FileNode.mk "a" "u1" [0] [0])
    (by decide) (by decide) (by decide) (by decide) (by rfl)

/-- C10 witness: forcing a path absent from the empty registry fails. -/
theorem C10_witness :
    exceptIsOk
      (create (SpiderEnv.mk (fun _ => "t") (fun _ => none) (fun _ _ => [])
        (fun _ _ _ => [])) 3 "a" true ⟨[], [], 0⟩) = false :=
  C10_force_absent_fails
    (SpiderEnv.mk (fun _ => "t") (fun _ => none) (fun _ _ => [])
      (fun _ _ _ => []))
    3 "a" ⟨[], [], 0⟩ (by decide)

/-- C4 witness: one stored record with timestamp 100 and a walk visiting
exactly that file with the same timestamp: nothing changes, nothing is
saved. -/
theorem C4_witness :
    (startScan
        (CacheEnv.mk (fun _ => "x") (fun _ => .list []) (fun _ => none)
          (fun _ => none) (fun _ _ => none))
        [("root/a.json", ⟨100, "c"⟩)]
        (LightningStore.mk
          [(("root/a.json", "x"), ⟨⟨100, none⟩, false⟩)])).1.2 = [] ∧
    (startScan
        (CacheEnv.mk (fun _ => "x") (fun _ => .list []) (fun _ => none)
          (fun _ => none) (fun _ _ => none))
        [("root/a.json", ⟨100, "c"⟩)]
        (LightningStore.mk
          [(("root/a.json", "x"), ⟨⟨100, none⟩, false⟩)])).2.2 = false :=
  (C4_persistence _ [("root/a.json", ⟨100, "c"⟩)]
    (LightningStore.mk [(("root/a.json", "x"), ⟨⟨100, none⟩, false⟩)])).2
    (by decide) (by decide)

end Editor
